import Mathlib

/-!
hanayo `templates.go`: template registry and renderer

A shallow embedding of `loadTemplates`, `resp`, the `baseTemplateData`
binders and the `atoi` helper of `templates.go`, with theorems settling
the claims C1..C10 about them.
-/

namespace Hanayo

/-! ## The template store (`var templates = make(map[string]*template.Template)`) -/

/-- A Go `map[string]*template.Template`, kept as an association list.
`Tpl` stands for a compiled `*template.Template`. -/
abbrev Store (Tpl : Type) := List (String × Tpl)

/-- The keys of the map. -/
def Store.keys {Tpl : Type} (m : Store Tpl) : List String := m.map Prod.fst

/-- The map read `m[k]`; `none` is Go's nil result for an absent key. -/
def Store.get {Tpl : Type} (m : Store Tpl) (k : String) : Option Tpl :=
  match m with
  | [] => none
  | (k', v) :: rest => if k' = k then some v else Store.get rest k

/-- The map write `m[k] = v`: an existing entry for `k` is replaced. -/
def Store.set {Tpl : Type} (m : Store Tpl) (k : String) (v : Tpl) : Store Tpl :=
  (k, v) :: m.filter (fun p => !decide (p.1 = k))

/-- The layout files, `var baseTemplates`. -/
def baseTemplates : List String :=
  ["templates/base.html", "templates/navbar.html"]

/-! ## The template directory -/

/-- What `ioutil.ReadDir` returns for a directory, together with the
contents of each subdirectory: a sequence of entries, each a non-directory
(`file`) or a directory (`dir`, where `readable = false` means that
`ReadDir` on it returns an error and `sub` is what it lists otherwise). -/
inductive Listing where
  | nil : Listing
  | file (name : String) (rest : Listing) : Listing
  | dir (name : String) (readable : Bool) (sub : Listing) (rest : Listing) : Listing
  deriving Repr, DecidableEq

/-- How a `loadTemplates` call ends: it returns (`ok`), or it panics; in both
cases `templates` is left holding the given map. -/
inductive LoadResult (Tpl : Type) where
  | ok (store : Store Tpl) : LoadResult Tpl
  | panic (store : Store Tpl) : LoadResult Tpl

/-- The map `templates` holds when the call ends. -/
def LoadResult.store {Tpl : Type} : LoadResult Tpl → Store Tpl
  | .ok s => s
  | .panic s => s

/-- Whether the call returned without a panic. -/
def LoadResult.isOk {Tpl : Type} : LoadResult Tpl → Bool
  | .ok _ => true
  | .panic _ => false

/-- The inner loop `for _, j := range baseTemplates` of `loadTemplates`:
is the full path one of the layout files. -/
def isBaseTemplate (fullPath : String) : Bool :=
  baseTemplates.any (fun j => decide (fullPath = j))

/-- The key prefix `inName` of `loadTemplates`. -/
def inName (subdir : String) : String :=
  if subdir ≠ "" ∧ subdir.get 0 = '/' then subdir.drop 1 ++ "/" else ""

/-- The part of the loop body of `loadTemplates` that follows the directory
test, for the entry `name`: skip a layout file, otherwise compile
(`template.Must(template.New(name).Funcs(funcMap).ParseFiles(...))`, given as
`compile name files`, `none` when `ParseFiles` returns an error) and store. -/
def loadFile {Tpl : Type} (compile : String → List String → Option Tpl)
    (subdir name : String) (store : Store Tpl) : LoadResult Tpl :=
  if isBaseTemplate ("templates" ++ subdir ++ "/" ++ name) then .ok store
  else
    match compile name (("templates" ++ subdir ++ "/" ++ name) :: baseTemplates) with
    | none => .panic store
    | some t => .ok (store.set (inName subdir ++ name) t)

/-- Sequencing: a panic unwinds past the rest of the loop, a return lets the
loop go on with the map as it then is. -/
def LoadResult.andThen {Tpl : Type} (r : LoadResult Tpl)
    (next : Store Tpl → LoadResult Tpl) : LoadResult Tpl :=
  match r with
  | .panic s => .panic s
  | .ok s => next s

/-- The loop `for _, i := range ts` of `loadTemplates(subdir)`, over the
entries `ts` that `ReadDir("templates" + subdir)` returned. A recursive call
`loadTemplates(subdir + "/" + i.Name())` panics when its `ReadDir` fails. -/
def loadEntries {Tpl : Type} (compile : String → List String → Option Tpl)
    (subdir : String) : Listing → Store Tpl → LoadResult Tpl
  | .nil, store => .ok store
  | .file name rest, store =>
    (loadFile compile subdir name store).andThen (loadEntries compile subdir rest)
  | .dir name readable sub rest, store =>
    if name ≠ ".." ∧ name ≠ "." then
      if readable then
        (loadEntries compile (subdir ++ "/" ++ name) sub store).andThen
          (loadEntries compile subdir rest)
      else .panic store
    else
      (loadFile compile subdir name store).andThen (loadEntries compile subdir rest)

/-- The template root: whether `ReadDir("templates")` succeeds, and what it
lists. -/
structure Root where
  readable : Bool
  entries : Listing
  deriving Repr, DecidableEq

/-- The call `loadTemplates(subdir)` on the directory `d`, starting with
`templates = store`. -/
def loadTemplates {Tpl : Type} (compile : String → List String → Option Tpl)
    (d : Root) (subdir : String) (store : Store Tpl) : LoadResult Tpl :=
  if d.readable then loadEntries compile subdir d.entries store else .panic store

/-! ## The tree as the specification sees it -/

/-- The non-directory entries below a listing, each as the chain of directory
names leading to it from the template root and its own name. -/
def Listing.entries (dirs : List String) : Listing → List (List String × String)
  | .nil => []
  | .file name rest => (dirs, name) :: Listing.entries dirs rest
  | .dir name _ sub rest =>
    Listing.entries (dirs ++ [name]) sub ++ Listing.entries dirs rest

/-- The path of an entry relative to the template root, joined by "/". -/
def relPath (e : List String × String) : String :=
  String.intercalate "/" (e.1 ++ [e.2])

/-- The full path of an entry, as the program spells it. -/
def fullPath (e : List String × String) : String := "templates/" ++ relPath e

/-- The relative path of every file below the listing, itself reached through
`dirs`, whose full path is not a layout file. -/
def Listing.names (dirs : List String) (ts : Listing) : List String :=
  ((Listing.entries dirs ts).filter (fun e => decide (fullPath e ∉ baseTemplates))).map relPath

/-- The logical names of a tree: the relative path of every file whose full
path is not a layout file. -/
def logicalNames (ts : Listing) : List String := Listing.names [] ts

/-- The argument `subdir` with which `loadTemplates` reaches the directory
at the end of the chain `dirs`. -/
def subdirOf (dirs : List String) : String :=
  dirs.foldl (fun acc d => acc ++ "/" ++ d) ""

/-- The map `s` is the map `st` after writes under keys of `names` only: no
key is lost, every new key is one of `names`, the entries under other keys
are untouched, and keys stay unique. -/
def Store.Extends {Tpl : Type} (st s : Store Tpl) (names : List String) : Prop :=
  (∀ k ∈ Store.keys st, k ∈ Store.keys s) ∧
  (∀ k ∈ Store.keys s, k ∈ Store.keys st ∨ k ∈ names) ∧
  (∀ k, k ∉ names → Store.get s k = Store.get st k) ∧
  ((Store.keys st).Nodup → (Store.keys s).Nodup)

/-- Every directory below the listing can be read. -/
def Listing.allReadable : Listing → Bool
  | .nil => true
  | .file _ rest => Listing.allReadable rest
  | .dir _ readable sub rest =>
    readable && Listing.allReadable sub && Listing.allReadable rest

/-- No directory entry is named "." or "..", as in every `ReadDir` result. -/
def Listing.noDots : Listing → Bool
  | .nil => true
  | .file _ rest => Listing.noDots rest
  | .dir name _ sub rest =>
    decide (name ≠ ".." ∧ name ≠ ".") && Listing.noDots sub && Listing.noDots rest

/-- The names a listing shows, files and directories alike. -/
def Listing.siblings : Listing → List String
  | .nil => []
  | .file name rest => name :: Listing.siblings rest
  | .dir name _ _ rest => name :: Listing.siblings rest

/-- Names as a file system gives them: no name holds the separator "/", and
no directory lists a name twice. -/
def Listing.wellNamed : Listing → Bool
  | .nil => true
  | .file name rest =>
    decide ('/' ∉ name.data) && decide (name ∉ Listing.siblings rest) &&
      Listing.wellNamed rest
  | .dir name _ sub rest =>
    decide ('/' ∉ name.data) && decide (name ∉ Listing.siblings rest) &&
      Listing.wellNamed sub && Listing.wellNamed rest

/-- The paths of the files below a listing, relative to the listing itself. -/
def Listing.localPaths : Listing → List String
  | .nil => []
  | .file name rest => name :: Listing.localPaths rest
  | .dir name _ sub rest =>
    (Listing.localPaths sub).map (fun y => name ++ "/" ++ y) ++ Listing.localPaths rest

/-- The prefix that the chain `dirs` puts before a path below it. -/
def pathBefore : List String → String
  | [] => ""
  | d :: ds => d ++ subdirOf ds ++ "/"

/-- Every non-layout file of the tree compiles together with the layout
files. -/
def Compiles {Tpl : Type} (compile : String → List String → Option Tpl)
    (ts : Listing) : Prop :=
  ∀ e ∈ Listing.entries [] ts, fullPath e ∉ baseTemplates →
    (compile e.2 (fullPath e :: baseTemplates)).isSome = true

/-- A template tree on which a load runs to the end: the root and every
directory are readable and every non-layout file compiles. -/
structure ValidTree {Tpl : Type} (compile : String → List String → Option Tpl)
    (d : Root) : Prop where
  root : d.readable = true
  readable : d.entries.allReadable = true
  noDots : d.entries.noDots = true
  compiles : Compiles compile d.entries

/-- A compiler that accepts every file; the artifact is the template name. -/
def acceptAll (name : String) (_files : List String) : Option String := some name

/-- A compiler that rejects the file named "b.html" and accepts the rest. -/
def rejectB (name : String) (_files : List String) : Option String :=
  if name = "b.html" then none else some name

/-- The tree `base.html`, `navbar.html`, `home.html`, `admin/users.html`, in
the order `ReadDir` lists it. -/
def siteTree : Root :=
  ⟨true, .dir "admin" true (.file "users.html" .nil)
    (.file "base.html" (.file "home.html" (.file "navbar.html" .nil)))⟩

/-- The tree `base.html`, `home.html`, `navbar.html`. -/
def homeTree : Root :=
  ⟨true, .file "base.html" (.file "home.html" (.file "navbar.html" .nil))⟩

/-- The tree `a.html`, `b.html`, `base.html`, `navbar.html`, in the order
`ReadDir` lists it. -/
def abTree : Root :=
  ⟨true, .file "a.html" (.file "b.html" (.file "base.html" (.file "navbar.html" .nil)))⟩

/-- A store left by an earlier load of a tree that held `old.html`. -/
def staleStore : Store String := [("old.html", "old.html")]

/-! ## Rendering: `resp` and the `baseTemplateData` binders -/

/-- The struct `baseTemplateData`. `Msg` is the host type `message`, `Cx` the
host type `context`; `Gin` is nil or the address of a request context. -/
structure baseTemplateData (Msg Cx : Type) where
  TitleBar : String
  HeadingTitle : String
  Scripts : List String
  KyutGrill : String
  DisableHH : Bool
  Context : Cx
  Path : String
  Messages : List Msg
  FormData : List (String × String)
  Gin : Option Nat

/-- The method `SetMessages`: `b.Messages = append(b.Messages, m...)`. -/
def baseTemplateData.SetMessages {Msg Cx : Type} (b : baseTemplateData Msg Cx)
    (m : List Msg) : baseTemplateData Msg Cx :=
  { b with Messages := b.Messages ++ m }

/-- The method `SetPath`. -/
def baseTemplateData.SetPath {Msg Cx : Type} (b : baseTemplateData Msg Cx)
    (path : String) : baseTemplateData Msg Cx :=
  { b with Path := path }

/-- The method `SetContext`. -/
def baseTemplateData.SetContext {Msg Cx : Type} (b : baseTemplateData Msg Cx)
    (c : Cx) : baseTemplateData Msg Cx :=
  { b with Context := c }

/-- The method `SetGinContext`; the handle is the address of the context. -/
def baseTemplateData.SetGinContext {Msg Cx : Type} (b : baseTemplateData Msg Cx)
    (c : Nat) : baseTemplateData Msg Cx :=
  { b with Gin := some c }

/-- The `data interface{}` argument of `resp`: a `*baseTemplateData`, which
implements `page`, or a value of a type that does not. -/
inductive Data (Msg Cx Val : Type) where
  | page (b : baseTemplateData Msg Cx) : Data Msg Cx Val
  | plain (v : Val) : Data Msg Cx Val

/-- The calls `resp` makes on its collaborators, in the order made. -/
inductive Event (Err : Type) where
  | string (code : Int) (text : String) : Event Err
  | setMessages : Event Err
  | setPath : Event Err
  | setContext : Event Err
  | setGinContext : Event Err
  | save : Event Err
  | execute (entry : String) : Event Err
  | writeString (text : String) : Event Err
  | error (e : Err) : Event Err
  | header (key value : String) : Event Err
  | status (code : Int) : Event Err
  | copy (bytes : String) : Event Err

/-- Whether the call hands bytes to the output sink. -/
def Event.isWrite {Err : Type} : Event Err → Bool
  | .string _ _ => true
  | .writeString _ => true
  | .copy _ => true
  | _ => false

/-- A `*gin.Context` as `resp` uses it. `addr` is its address, `path` is
`c.Request.URL.Path`, `context` is the value under the key "context" when it
is there with type `context` (`MustGet` and the type assertion panic
otherwise), `session` says whether the key "session" holds a
`sessions.Session`. The response is its status, headers and the bytes the
sink has taken; `sinkFault = some (n, e)` is a sink whose `Write` takes only
the first `n` bytes and returns the error `e`. `saves` counts `sess.Save()`
calls, `errors` is `c.Errors`. -/
structure GinContext (Cx Err : Type) where
  addr : Nat
  path : String
  context : Option Cx
  session : Bool
  status : Int
  headers : List (String × String)
  body : String
  sinkFault : Option (Nat × Err)
  errors : List Err
  saves : Nat

/-- The header read `c.Writer.Header().Get(key)`. -/
def GinContext.getHeader {Cx Err : Type} (c : GinContext Cx Err) (key : String) :
    Option String :=
  (c.headers.find? (fun p => decide (p.1 = key))).map Prod.snd

/-- The sink write `c.Writer.Write(bytes)`. -/
def GinContext.write {Cx Err : Type} (c : GinContext Cx Err) (bytes : String) :
    GinContext Cx Err × Option Err :=
  match c.sinkFault with
  | none => ({ c with body := c.body ++ bytes }, none)
  | some (n, e) => ({ c with body := c.body ++ bytes.take n }, some e)

/-- The call `c.Writer.WriteString(text)`, its error dropped. -/
def GinContext.WriteString {Cx Err : Type} (c : GinContext Cx Err) (text : String) :
    GinContext Cx Err :=
  (c.write text).1

/-- The call `c.Status(code)`: gin's `WriteHeader` takes the code when it is
positive and leaves the status as it is otherwise. -/
def GinContext.Status {Cx Err : Type} (c : GinContext Cx Err) (code : Int) :
    GinContext Cx Err :=
  if code > 0 then { c with status := code } else c

/-- The call `c.Header(key, value)`. -/
def GinContext.Header {Cx Err : Type} (c : GinContext Cx Err) (key value : String) :
    GinContext Cx Err :=
  { c with headers := (key, value) :: c.headers.filter (fun p => !decide (p.1 = key)) }

/-- The call `c.Error(err)`. -/
def GinContext.Error {Cx Err : Type} (c : GinContext Cx Err) (err : Err) :
    GinContext Cx Err :=
  { c with errors := c.errors ++ [err] }

/-- The content type gin's `c.String` gives a response. -/
def plainContentType : String := "text/plain; charset=utf-8"

/-- The call `c.String(code, text)` with no format arguments (spelled
`string`, as `String` is the type): gin sets the status, sets Content-Type to
"text/plain; charset=utf-8" when the response has no Content-Type yet, writes
the text, and records the error of a failed write in `c.Errors`. -/
def GinContext.string {Cx Err : Type} (c : GinContext Cx Err) (code : Int)
    (text : String) : GinContext Cx Err :=
  let c := c.Status code
  let c := if c.getHeader "Content-Type" = none then c.Header "Content-Type" plainContentType
    else c
  match c.write text with
  | (c, none) => c
  | (c, some e) => c.Error e

/-- The call `sess.Save()`. -/
def GinContext.Save {Cx Err : Type} (c : GinContext Cx Err) : GinContext Cx Err :=
  { c with saves := c.saves + 1 }

/-- The call `io.Copy(c.Writer, buf)`: `buf.WriteTo` makes one `Write` of the
whole buffer, and none when the buffer is empty. -/
def GinContext.Copy {Cx Err : Type} (c : GinContext Cx Err) (buf : String) :
    GinContext Cx Err × Option Err :=
  if buf = "" then (c, none) else c.write buf

/-- How a `resp` call ends: the request context (absent when `c == nil`), the
data value, the calls made, and whether the call panicked instead of
returning. -/
structure RespResult (Msg Cx Err Val : Type) where
  c : Option (GinContext Cx Err)
  data : Data Msg Cx Val
  log : List (Event Err)
  panicked : Bool

/-- The text `resp` writes for an unknown template. -/
def notFoundMessage : String := "Template not found! Please tell this to a dev!"

/-- The text `resp` writes when the execution fails. -/
def apologyMessage : String :=
  "oooops! A brit monkey stumbled upon a banana while trying to process your request. " ++
  "This doesn't make much sense, but in a few words: we fucked up something while processing your " ++
  "request. We are sorry for this, but don't worry: we have been notified and are on it!"

/-- The text `resp` writes when the copy fails. -/
def copyFailedMessage : String := "We don't know what's happening now."

/-- The block `if corrected, ok := data.(page); ok { ... }` of `resp`: the
data value afterwards, the binder calls made, and whether
`c.MustGet("context").(context)` panicked. -/
def bindPage {Msg Cx Err Val : Type} (getMessages : GinContext Cx Err → List Msg)
    (c : GinContext Cx Err) (data : Data Msg Cx Val) :
    Data Msg Cx Val × List (Event Err) × Bool :=
  match data with
  | .plain v => (.plain v, [], false)
  | .page b =>
    let b := b.SetMessages (getMessages c)
    let b := b.SetPath c.path
    match c.context with
    | none => (.page b, [.setMessages, .setPath], true)
    | some x =>
      let b := b.SetContext x
      let b := b.SetGinContext c.addr
      (.page b, [.setMessages, .setPath, .setContext, .setGinContext], false)

/-- The function `resp`. `templates` is the store, `getMessages` the host
function of that name, and `execute t entry data` is
`t.ExecuteTemplate(buf, entry, data)`: the bytes left in `buf` and the error
returned. -/
def resp {Tpl Msg Cx Err Val : Type} (templates : Store Tpl)
    (getMessages : GinContext Cx Err → List Msg)
    (execute : Tpl → String → Data Msg Cx Val → String × Option Err)
    (c : Option (GinContext Cx Err)) (statusCode : Int) (tpl : String)
    (data : Data Msg Cx Val) : RespResult Msg Cx Err Val :=
  match c with
  | none => ⟨none, data, [], false⟩
  | some c =>
    match templates.get tpl with
    | none => ⟨some (c.string 500 notFoundMessage), data, [.string 500 notFoundMessage], false⟩
    | some t =>
      match bindPage getMessages c data with
      | (data, calls, true) => ⟨some c, data, calls, true⟩
      | (data, calls, false) =>
        if c.session then
          let c := c.Save
          let (buf, err) := execute t "base" data
          match err with
          | some e =>
            let c := c.WriteString apologyMessage
            let c := c.Error e
            ⟨some c, data, calls ++ [.save, .execute "base", .writeString apologyMessage, .error e],
              false⟩
          | none =>
            let c := c.Header "Content-Type" "text/html; charset=utf-8"
            let c := c.Status statusCode
            match c.Copy buf with
            | (c, some e) =>
              let c := c.WriteString copyFailedMessage
              let c := c.Error e
              ⟨some c, data,
                calls ++ [.save, .execute "base", .header "Content-Type" "text/html; charset=utf-8",
                  .status statusCode, .copy buf, .writeString copyFailedMessage, .error e],
                false⟩
            | (c, none) =>
              ⟨some c, data,
                calls ++ [.save, .execute "base", .header "Content-Type" "text/html; charset=utf-8",
                  .status statusCode, .copy buf],
                false⟩
        else ⟨some c, data, calls, true⟩

/-- Whether the data value implements `page`. -/
def Data.isPage {Msg Cx Val : Type} : Data Msg Cx Val → Bool
  | .page _ => true
  | .plain _ => false

/-- Whether the call is one of the four binders of `page`. -/
def Event.isBinder {Err : Type} : Event Err → Bool
  | .setMessages => true
  | .setPath => true
  | .setContext => true
  | .setGinContext => true
  | _ => false

/-- Whether the call is `sess.Save()`. -/
def Event.isSave {Err : Type} : Event Err → Bool
  | .save => true
  | _ => false

/-- Whether the call is `c.Header(...)`. -/
def Event.isHeader {Err : Type} : Event Err → Bool
  | .header _ _ => true
  | _ => false

/-- Whether the call executes a template. -/
def Event.isExecute {Err : Type} : Event Err → Bool
  | .execute _ => true
  | _ => false

/-- A request context for "/" with a session and a context value, nothing
written yet. -/
def demoContext : GinContext String String :=
  { addr := 1, path := "/", context := some "user", session := true, status := 200,
    headers := [], body := "", sinkFault := none, errors := [], saves := 0 }

/-- A store with a template that renders and one whose execution fails. -/
def demoStore : Store String := [("home.html", "home"), ("broken.html", "broken")]

/-- An execution that succeeds on the template "home" and fails part-way on
any other. -/
def demoExecute (t : String) (_entry : String) (_data : Data String String String) :
    String × Option String :=
  if t = "home" then ("<html>Home</html>", none) else ("<html>", some "nil pointer")

/-- A request that carries one message. -/
def demoMessages (_c : GinContext String String) : List String := ["saved"]

/-- A page value that already holds a message. -/
def demoPage : baseTemplateData String String :=
  { TitleBar := "Home", HeadingTitle := "Home", Scripts := ["a.js"], KyutGrill := "k.jpg",
    DisableHH := false, Context := "", Path := "", Messages := ["earlier"],
    FormData := [("name", "x")], Gin := none }

/-! ## The helper `atoi` of `funcMap` -/

/-- The two errors of `strconv`. -/
inductive NumError where
  | ErrSyntax : NumError
  | ErrRange : NumError
  deriving DecidableEq, Repr

/-- The constant `maxUint64` of `strconv`. -/
def maxUint64 : Nat := 2 ^ 64 - 1

/-- The loop of `strconv.ParseUint(s, 10, bitSize)` over the remaining bytes,
`n` being the `uint64` accumulated so far. A letter is a digit of value ten
or more, which base 10 rejects like any other byte. -/
def ParseUint.loop (maxVal : Nat) : List Char → Nat → Nat × Option NumError
  | [], n => (n, none)
  | d :: rest, n =>
    if '0' ≤ d ∧ d ≤ '9' then
      let v := d.toNat - '0'.toNat
      if n ≥ maxUint64 / 10 + 1 then (maxUint64, some .ErrRange)
      else
        let n := (n * 10) % 2 ^ 64
        let n1 := (n + v) % 2 ^ 64
        if n1 < n ∨ n1 > maxVal then (maxUint64, some .ErrRange)
        else ParseUint.loop maxVal rest n1
    else (0, some .ErrSyntax)

/-- The function `strconv.ParseUint(s, 10, bitSize)`, on the bytes of `s`;
`maxVal` is the `uint64` value `1<<uint(bitSize) - 1`. -/
def ParseUint (s : List Char) (bitSize : Nat) : Nat × Option NumError :=
  match s with
  | [] => (0, some .ErrSyntax)
  | _ => ParseUint.loop ((2 ^ bitSize + 2 ^ 64 - 1) % 2 ^ 64) s 0

/-- The part of `strconv.ParseInt` that follows the sign: `body` is what is
left of the string, `neg` whether the sign was "-". -/
def ParseInt.signed (neg : Bool) (body : List Char) (bitSize : Nat) :
    Int × Option NumError :=
  match ParseUint body bitSize with
  | (_, some .ErrSyntax) => (0, some .ErrSyntax)
  | (un, _) =>
    let cutoff := 2 ^ (bitSize - 1)
    if neg = false ∧ un ≥ cutoff then ((cutoff : Int) - 1, some .ErrRange)
    else if neg = true ∧ un > cutoff then (-(cutoff : Int), some .ErrRange)
    else (if neg then -(un : Int) else (un : Int), none)

/-- The function `strconv.ParseInt(s, 10, bitSize)`. -/
def ParseInt (s : List Char) (bitSize : Nat) : Int × Option NumError :=
  match s with
  | [] => (0, some .ErrSyntax)
  | c :: cs =>
    if c = '+' then ParseInt.signed false cs bitSize
    else if c = '-' then ParseInt.signed true cs bitSize
    else ParseInt.signed false (c :: cs) bitSize

/-- The function `strconv.Atoi`: `ParseInt(s, 10, 0)`, the bit size 0 standing
for the platform's `intSize`. -/
def Atoi (intSize : Nat) (s : String) : Int × Option NumError :=
  ParseInt s.data intSize

/-- How many low bits a natural number has beyond the 53 that the significand
of a `float64` holds (`fuel` bounds the count; 64 serves every `uint64`). -/
def excessBits : Nat → Nat → Nat
  | 0, _ => 0
  | fuel + 1, n => if n < 2 ^ 53 then 0 else 1 + excessBits fuel (n / 2)

/-- The value of the `float64` nearest to a natural number below 2^64: the
number itself when it fits in 53 bits, otherwise its leading 53 bits rounded
to nearest, ties to the even significand. -/
def roundFloat64 (n : Nat) : Nat :=
  let e := excessBits 64 n
  if e = 0 then n
  else
    let q := n / 2 ^ e
    let r := n % 2 ^ e
    let half := 2 ^ (e - 1)
    if r > half ∨ (r = half ∧ q % 2 = 1) then (q + 1) * 2 ^ e else q * 2 ^ e

/-- The conversion `float64(i)` of an `int`, given by the value of the
resulting `float64`, which is an integer. -/
def float64 (i : Int) : Int :=
  if i < 0 then -(roundFloat64 i.natAbs : Int) else (roundFloat64 i.natAbs : Int)

/-- What the helper hands to the template: `nil`, or a `float64`, given by
its value. -/
inductive AtoiValue where
  | nil : AtoiValue
  | number (x : Int) : AtoiValue
  deriving DecidableEq, Repr

/-- The entry "atoi" of `funcMap`. -/
def atoi (intSize : Nat) (s : String) : AtoiValue :=
  match Atoi intSize s with
  | (_, some _) => .nil
  | (i, none) => .number (float64 i)

/-- The value of a string of decimal digits. -/
def decimalValue (digits : List Char) : Nat :=
  digits.foldl (fun n d => 10 * n + (d.toNat - 48)) 0

/-- The string is a base-10 integer literal of value `i`: an optional sign
followed by one or more decimal digits. -/
def IsIntLiteral (s : String) (i : Int) : Prop :=
  ∃ digits : List Char, digits ≠ [] ∧ (∀ d ∈ digits, d.isDigit = true) ∧
    ((s.data = digits ∧ i = decimalValue digits) ∨
     (s.data = '+' :: digits ∧ i = decimalValue digits) ∨
     (s.data = '-' :: digits ∧ i = -(decimalValue digits : Int)))

/-- The range of `int` on a platform with `intSize` bits. -/
def InIntRange (intSize : Nat) (i : Int) : Prop :=
  -(2 : Int) ^ (intSize - 1) ≤ i ∧ i < (2 : Int) ^ (intSize - 1)

/-! ## Lemmas on the store -/

theorem Store.keys_set {Tpl : Type} (m : Store Tpl) (k : String) (v : Tpl) :
    (Store.set m k v).keys = k :: (Store.keys m).filter (fun x => !decide (x = k)) := by
  simp only [Store.set, Store.keys, List.map_cons, List.cons.injEq, true_and]
  induction m with
  | nil => rfl
  | cons p rest ih =>
    by_cases h : p.1 = k <;> simp [List.filter_cons, h, ih]

theorem Store.mem_keys_set {Tpl : Type} (m : Store Tpl) (k : String) (v : Tpl)
    (x : String) : x ∈ (Store.set m k v).keys ↔ x = k ∨ x ∈ Store.keys m := by
  rw [Store.keys_set]
  by_cases h : x = k <;> simp [h]

theorem Store.nodup_keys_set {Tpl : Type} (m : Store Tpl) (k : String) (v : Tpl)
    (h : (Store.keys m).Nodup) : (Store.set m k v).keys.Nodup := by
  rw [Store.keys_set]
  refine List.nodup_cons.mpr ⟨?_, h.filter _⟩
  simp

theorem Store.get_filter_ne {Tpl : Type} (m : Store Tpl) (k x : String) (h : x ≠ k) :
    Store.get (m.filter (fun p => !decide (p.1 = k))) x = Store.get m x := by
  induction m with
  | nil => rfl
  | cons p rest ih =>
    obtain ⟨k', v'⟩ := p
    by_cases hk : k' = k
    · have hx : ¬ k' = x := fun e => h (e ▸ hk)
      simp only [List.filter_cons, hk, decide_True, Bool.not_true, Bool.false_eq_true,
        if_false, ih, Store.get]
      rw [if_neg (hk ▸ hx)]
    · by_cases hx : k' = x
      · subst hx
        simp [List.filter_cons, hk, Store.get]
      · simp [List.filter_cons, hk, Store.get, ih, hx]

theorem Store.get_set_ne {Tpl : Type} (m : Store Tpl) (k : String) (v : Tpl)
    (x : String) (h : x ≠ k) : (Store.set m k v).get x = Store.get m x := by
  have hk : ¬ k = x := fun e => h e.symm
  simp only [Store.set, Store.get, hk, if_false]
  exact Store.get_filter_ne m k x h

theorem Store.get_set_self {Tpl : Type} (m : Store Tpl) (k : String) (v : Tpl) :
    (Store.set m k v).get k = some v := by
  simp [Store.set, Store.get]

theorem Store.get_isSome_iff {Tpl : Type} (m : Store Tpl) (k : String) :
    (Store.get m k).isSome = true ↔ k ∈ Store.keys m := by
  induction m with
  | nil => simp [Store.get, Store.keys]
  | cons p rest ih =>
    obtain ⟨k', v'⟩ := p
    by_cases hk : k' = k
    · simp [Store.get, Store.keys, hk]
    · have hk2 : ¬ k = k' := fun e => hk e.symm
      simp only [Store.get, hk, if_false, ih, Store.keys, List.map_cons, List.mem_cons, hk2,
        false_or]

/-! ## Lemmas on paths -/

theorem foldl_slash_acc (acc : String) (ds : List String) :
    ds.foldl (fun acc d => acc ++ "/" ++ d) acc = acc ++ subdirOf ds := by
  induction ds using List.reverseRecOn with
  | nil => simp [subdirOf]
  | append_singleton ds d ih =>
    simp only [subdirOf, List.foldl_append, List.foldl_cons, List.foldl_nil] at ih ⊢
    rw [ih]
    simp only [subdirOf, String.append_assoc]

theorem subdirOf_snoc (dirs : List String) (d : String) :
    subdirOf (dirs ++ [d]) = subdirOf dirs ++ "/" ++ d := by
  simp [subdirOf, List.foldl_append]

theorem subdirOf_cons (d : String) (ds : List String) :
    subdirOf (d :: ds) = "/" ++ (d ++ subdirOf ds) := by
  have h := foldl_slash_acc ("" ++ "/" ++ d) ds
  simp only [subdirOf, List.foldl_cons] at h ⊢
  rw [h]
  simp [subdirOf, String.append_assoc]

theorem intercalate_go_slash (acc : String) (ds : List String) :
    String.intercalate.go acc "/" ds = acc ++ subdirOf ds := by
  induction ds generalizing acc with
  | nil => simp [String.intercalate.go, subdirOf]
  | cons d ds ih =>
    rw [String.intercalate.go, ih, subdirOf_cons]
    simp [String.append_assoc]

theorem relPath_nil (name : String) : relPath ([], name) = name := by
  simp [relPath, String.intercalate, String.intercalate.go]

theorem relPath_cons (d : String) (ds : List String) (name : String) :
    relPath (d :: ds, name) = d ++ subdirOf ds ++ "/" ++ name := by
  simp [relPath, String.intercalate, intercalate_go_slash, subdirOf_snoc, String.append_assoc]

theorem inName_subdirOf (dirs : List String) (name : String) :
    inName (subdirOf dirs) ++ name = relPath (dirs, name) := by
  cases dirs with
  | nil => simp [subdirOf, inName, relPath_nil]
  | cons d ds =>
    rw [relPath_cons, subdirOf_cons]
    have h1 : ("/" ++ (d ++ subdirOf ds)) ≠ "" := by
      intro h
      have := congrArg String.data h
      simp at this
    have h2 : ("/" ++ (d ++ subdirOf ds)).get 0 = '/' := by
      simp [String.get, String.utf8GetAux]
    have h3 : ("/" ++ (d ++ subdirOf ds)).drop 1 = d ++ subdirOf ds := by
      apply String.ext
      simp [String.drop_eq]
    simp only [inName, h1, h2, h3, ne_eq, not_false_eq_true, and_self, if_true]

theorem fullPath_subdirOf (dirs : List String) (name : String) :
    "templates" ++ subdirOf dirs ++ "/" ++ name = fullPath (dirs, name) := by
  have ht : "templates/" = "templates" ++ "/" := by decide
  cases dirs with
  | nil =>
    have he : subdirOf [] = "" := rfl
    rw [fullPath, relPath_nil, ht, he, String.append_empty]
  | cons d ds =>
    rw [fullPath, relPath_cons, subdirOf_cons, ht]
    simp only [String.append_assoc]

theorem isBaseTemplate_iff (p : String) : isBaseTemplate p = true ↔ p ∈ baseTemplates := by
  unfold isBaseTemplate
  rw [List.any_eq_true]
  constructor
  · rintro ⟨j, hj, he⟩
    rw [of_decide_eq_true he]
    exact hj
  · intro h
    exact ⟨p, h, decide_eq_true rfl⟩

theorem loadFile_eq {Tpl : Type} (compile : String → List String → Option Tpl)
    (dirs : List String) (name : String) (store : Store Tpl) :
    loadFile compile (subdirOf dirs) name store =
      if fullPath (dirs, name) ∈ baseTemplates then .ok store
      else match compile name (fullPath (dirs, name) :: baseTemplates) with
        | none => .panic store
        | some t => .ok (store.set (relPath (dirs, name)) t) := by
  unfold loadFile
  rw [fullPath_subdirOf, inName_subdirOf]
  by_cases h : fullPath (dirs, name) ∈ baseTemplates
  · simp [h, (isBaseTemplate_iff _).mpr h]
  · have h' : ¬ isBaseTemplate (fullPath (dirs, name)) = true :=
      fun e => h ((isBaseTemplate_iff _).mp e)
    simp [h, h']

theorem loadEntries_nil {Tpl : Type} (compile : String → List String → Option Tpl)
    (subdir : String) (st : Store Tpl) :
    loadEntries compile subdir .nil st = .ok st := by
  rw [loadEntries]

theorem loadEntries_file {Tpl : Type} (compile : String → List String → Option Tpl)
    (subdir name : String) (rest : Listing) (st : Store Tpl) :
    loadEntries compile subdir (.file name rest) st =
      (loadFile compile subdir name st).andThen (loadEntries compile subdir rest) := by
  rw [loadEntries]

theorem loadEntries_dir {Tpl : Type} (compile : String → List String → Option Tpl)
    (subdir name : String) (readable : Bool) (sub rest : Listing) (st : Store Tpl)
    (hn : name ≠ ".." ∧ name ≠ ".") :
    loadEntries compile subdir (.dir name readable sub rest) st =
      if readable = true then
        (loadEntries compile (subdir ++ "/" ++ name) sub st).andThen
          (loadEntries compile subdir rest)
      else .panic st := by
  rw [loadEntries, if_pos hn]

/-! ## Lemmas on the loader -/

theorem Store.Extends.refl {Tpl : Type} (st : Store Tpl) (names : List String) :
    Store.Extends st st names :=
  ⟨fun _ h => h, fun _ h => Or.inl h, fun _ _ => rfl, fun h => h⟩

theorem Store.Extends.trans {Tpl : Type} {a b c : Store Tpl} {n1 n2 : List String}
    (h1 : Store.Extends a b n1) (h2 : Store.Extends b c n2) :
    Store.Extends a c (n1 ++ n2) := by
  obtain ⟨m1, u1, g1, d1⟩ := h1
  obtain ⟨m2, u2, g2, d2⟩ := h2
  refine ⟨fun k hk => m2 k (m1 k hk), ?_, ?_, fun h => d2 (d1 h)⟩
  · intro k hk
    rcases u2 k hk with h | h
    · rcases u1 k h with h' | h'
      · exact Or.inl h'
      · exact Or.inr (List.mem_append.mpr (Or.inl h'))
    · exact Or.inr (List.mem_append.mpr (Or.inr h))
  · intro k hk
    have hk1 : k ∉ n1 := fun h => hk (List.mem_append.mpr (Or.inl h))
    have hk2 : k ∉ n2 := fun h => hk (List.mem_append.mpr (Or.inr h))
    rw [g2 k hk2, g1 k hk1]

theorem Store.Extends.set {Tpl : Type} (st : Store Tpl) (k : String) (v : Tpl) :
    Store.Extends st (Store.set st k v) [k] := by
  refine ⟨fun x hx => (Store.mem_keys_set st k v x).mpr (Or.inr hx), ?_, ?_,
    Store.nodup_keys_set st k v⟩
  · intro x hx
    rcases (Store.mem_keys_set st k v x).mp hx with h | h
    · exact Or.inr (by simp [h])
    · exact Or.inl h
  · intro x hx
    exact Store.get_set_ne st k v x (by simpa using hx)

theorem names_nil (dirs : List String) : Listing.names dirs .nil = [] := rfl

theorem names_file (dirs : List String) (name : String) (rest : Listing) :
    Listing.names dirs (.file name rest) =
      (if fullPath (dirs, name) ∈ baseTemplates then [] else [relPath (dirs, name)]) ++
        Listing.names dirs rest := by
  by_cases h : fullPath (dirs, name) ∈ baseTemplates <;>
    simp [Listing.names, Listing.entries, List.filter_cons, h]

theorem names_dir (dirs : List String) (name : String) (readable : Bool)
    (sub rest : Listing) :
    Listing.names dirs (.dir name readable sub rest) =
      Listing.names (dirs ++ [name]) sub ++ Listing.names dirs rest := by
  simp [Listing.names, Listing.entries]

theorem loadFile_extends {Tpl : Type} (compile : String → List String → Option Tpl)
    (dirs : List String) (name : String) (st : Store Tpl) :
    Store.Extends st (loadFile compile (subdirOf dirs) name st).store
      (if fullPath (dirs, name) ∈ baseTemplates then [] else [relPath (dirs, name)]) := by
  rw [loadFile_eq]
  by_cases h : fullPath (dirs, name) ∈ baseTemplates
  · simp only [h, if_true]
    exact Store.Extends.refl st _
  · simp only [h, if_false]
    cases hc : compile name (fullPath (dirs, name) :: baseTemplates) with
    | none => exact Store.Extends.refl st _
    | some t => exact Store.Extends.set st _ t

theorem Store.Extends.andThen {Tpl : Type} {st : Store Tpl} {r : LoadResult Tpl}
    {next : Store Tpl → LoadResult Tpl} {n1 n2 : List String}
    (h1 : Store.Extends st r.store n1)
    (h2 : ∀ s, Store.Extends s (next s).store n2) :
    Store.Extends st (r.andThen next).store (n1 ++ n2) := by
  cases r with
  | panic s => exact Store.Extends.trans h1 (Store.Extends.refl s _)
  | ok s => exact Store.Extends.trans h1 (h2 s)

theorem loadEntries_extends {Tpl : Type} (compile : String → List String → Option Tpl)
    (ts : Listing) : ∀ (dirs : List String) (st : Store Tpl), ts.noDots = true →
      Store.Extends st (loadEntries compile (subdirOf dirs) ts st).store
        (Listing.names dirs ts) := by
  induction ts with
  | nil =>
    intro dirs st _
    rw [loadEntries_nil, names_nil]
    exact Store.Extends.refl st _
  | file name rest ih =>
    intro dirs st hd
    have hd' : rest.noDots = true := by simpa [Listing.noDots] using hd
    rw [names_file, loadEntries_file]
    exact Store.Extends.andThen (loadFile_extends compile dirs name st)
      (fun s => ih dirs s hd')
  | dir name readable sub rest ihs ihr =>
    intro dirs st hd
    simp only [Listing.noDots, Bool.and_eq_true, decide_eq_true_eq] at hd
    obtain ⟨⟨hn, hs⟩, hr⟩ := hd
    rw [names_dir, loadEntries_dir _ _ _ _ _ _ _ hn]
    cases readable with
    | false => exact Store.Extends.refl st _
    | true =>
      have h1 := ihs (dirs ++ [name]) st hs
      rw [subdirOf_snoc] at h1
      simp only [if_true]
      exact Store.Extends.andThen h1 (fun s => ihr dirs s hr)

theorem LoadResult.store_andThen_ok {Tpl : Type} {r : LoadResult Tpl}
    {next : Store Tpl → LoadResult Tpl} {s : Store Tpl} (h : r = .ok s) :
    r.andThen next = next s := by
  subst h
  rfl

theorem loadEntries_ok {Tpl : Type} (compile : String → List String → Option Tpl)
    (ts : Listing) : ∀ (dirs : List String) (st : Store Tpl),
      ts.allReadable = true → ts.noDots = true →
      (∀ e ∈ Listing.entries dirs ts, fullPath e ∉ baseTemplates →
        (compile e.2 (fullPath e :: baseTemplates)).isSome = true) →
      ∃ s, loadEntries compile (subdirOf dirs) ts st = .ok s ∧
        ∀ k ∈ Listing.names dirs ts, k ∈ Store.keys s := by
  induction ts with
  | nil =>
    intro dirs st _ _ _
    exact ⟨st, loadEntries_nil _ _ _, by simp [names_nil]⟩
  | file name rest ih =>
    intro dirs st hr hd hc
    have hr' : rest.allReadable = true := by simpa [Listing.allReadable] using hr
    have hd' : rest.noDots = true := by simpa [Listing.noDots] using hd
    have hc' : ∀ e ∈ Listing.entries dirs rest, fullPath e ∉ baseTemplates →
        (compile e.2 (fullPath e :: baseTemplates)).isSome = true :=
      fun e he => hc e (by simp [Listing.entries, he])
    rw [names_file, loadEntries_file, loadFile_eq]
    by_cases hb : fullPath (dirs, name) ∈ baseTemplates
    · obtain ⟨s, hs, hk⟩ := ih dirs st hr' hd' hc'
      refine ⟨s, ?_, ?_⟩
      · rw [if_pos hb]
        exact hs
      · simpa [hb] using hk
    · have h1 := hc (dirs, name) (by simp [Listing.entries]) hb
      obtain ⟨t, ht⟩ := Option.isSome_iff_exists.mp h1
      simp only at ht
      obtain ⟨s, hs, hk⟩ := ih dirs (Store.set st (relPath (dirs, name)) t) hr' hd' hc'
      refine ⟨s, ?_, ?_⟩
      · rw [if_neg hb, ht]
        exact hs
      · intro k hk'
        rw [if_neg hb] at hk'
        rcases List.mem_append.mp hk' with h | h
        · have hx := loadEntries_extends compile rest dirs
            (Store.set st (relPath (dirs, name)) t) hd'
          rw [hs] at hx
          refine hx.1 k ?_
          rw [Store.mem_keys_set]
          exact Or.inl (by simpa using h)
        · exact hk k h
  | dir name readable sub rest ihs ihr =>
    intro dirs st hr hd hc
    simp only [Listing.noDots, Bool.and_eq_true, decide_eq_true_eq] at hd
    obtain ⟨⟨hn, hds⟩, hdr⟩ := hd
    simp only [Listing.allReadable, Bool.and_eq_true] at hr
    obtain ⟨⟨hre, hrs⟩, hrr⟩ := hr
    have hcs : ∀ e ∈ Listing.entries (dirs ++ [name]) sub, fullPath e ∉ baseTemplates →
        (compile e.2 (fullPath e :: baseTemplates)).isSome = true :=
      fun e he => hc e (by simp [Listing.entries, he])
    have hcr : ∀ e ∈ Listing.entries dirs rest, fullPath e ∉ baseTemplates →
        (compile e.2 (fullPath e :: baseTemplates)).isSome = true :=
      fun e he => hc e (by simp [Listing.entries, he])
    obtain ⟨s1, hs1, hk1⟩ := ihs (dirs ++ [name]) st hrs hds hcs
    obtain ⟨s2, hs2, hk2⟩ := ihr dirs s1 hrr hdr hcr
    rw [subdirOf_snoc] at hs1
    refine ⟨s2, ?_, ?_⟩
    · rw [loadEntries_dir _ _ _ _ _ _ _ hn, if_pos hre, LoadResult.store_andThen_ok hs1]
      exact hs2
    · intro k hk
      rw [names_dir] at hk
      rcases List.mem_append.mp hk with h | h
      · have hx := loadEntries_extends compile rest dirs s1 hdr
        rw [hs2] at hx
        exact hx.1 k (hk1 k h)
      · exact hk2 k h

theorem subdirOf_nil : subdirOf [] = "" := rfl

theorem loadTemplates_valid {Tpl : Type} (compile : String → List String → Option Tpl)
    (d : Root) (st : Store Tpl) (h : ValidTree compile d) :
    ∃ s, loadTemplates compile d "" st = .ok s ∧
      (∀ k, k ∈ Store.keys s ↔ k ∈ Store.keys st ∨ k ∈ logicalNames d.entries) ∧
      (∀ k, k ∉ logicalNames d.entries → Store.get s k = Store.get st k) ∧
      ((Store.keys st).Nodup → (Store.keys s).Nodup) := by
  obtain ⟨s, hs, hk⟩ := loadEntries_ok compile d.entries [] st h.readable h.noDots h.compiles
  have hx := loadEntries_extends compile d.entries [] st h.noDots
  rw [hs] at hx
  rw [subdirOf_nil] at hs
  refine ⟨s, ?_, ?_, hx.2.2.1, hx.2.2.2⟩
  · simp only [loadTemplates, h.root, if_true]
    exact hs
  · intro k
    constructor
    · exact hx.2.1 k
    · rintro (h1 | h1)
      · exact hx.1 k h1
      · exact hk k h1

theorem loadTemplates_extends {Tpl : Type} (compile : String → List String → Option Tpl)
    (d : Root) (st : Store Tpl) (h : d.entries.noDots = true) :
    Store.Extends st (loadTemplates compile d "" st).store (logicalNames d.entries) := by
  unfold loadTemplates
  cases hr : d.readable with
  | false => exact Store.Extends.refl st _
  | true =>
    have hx := loadEntries_extends compile d.entries [] st h
    rw [subdirOf_nil] at hx
    simpa using hx

theorem not_layout_of_mem_names (dirs : List String) (ts : Listing) (k : String)
    (h : k ∈ Listing.names dirs ts) : "templates/" ++ k ∉ baseTemplates := by
  simp only [Listing.names, List.mem_map, List.mem_filter, decide_eq_true_eq] at h
  obtain ⟨e, ⟨_, he⟩, rfl⟩ := h
  exact he

/-! ## Distinct files have distinct logical names -/

theorem relPath_eq_append (dirs : List String) (name : String) :
    relPath (dirs, name) = pathBefore dirs ++ name := by
  cases dirs with
  | nil => simp [relPath_nil, pathBefore]
  | cons d ds => rw [relPath_cons, pathBefore]

theorem pathBefore_snoc (dirs : List String) (name : String) :
    pathBefore (dirs ++ [name]) = pathBefore dirs ++ (name ++ "/") := by
  cases dirs with
  | nil => simp [pathBefore, subdirOf_nil]
  | cons d ds =>
    simp only [List.cons_append, pathBefore, subdirOf_snoc, String.append_assoc]

theorem map_relPath_entries (ts : Listing) : ∀ dirs : List String,
    (Listing.entries dirs ts).map relPath =
      (Listing.localPaths ts).map (fun y => pathBefore dirs ++ y) := by
  induction ts with
  | nil => intro dirs; rfl
  | file name rest ih =>
    intro dirs
    simp only [Listing.entries, Listing.localPaths, List.map_cons, ih, relPath_eq_append]
  | dir name readable sub rest ihs ihr =>
    intro dirs
    simp only [Listing.entries, Listing.localPaths, List.map_append, ihs, ihr, List.map_map,
      pathBefore_snoc]
    congr 1
    apply List.map_congr_left
    intro y _
    simp [String.append_assoc]

theorem string_append_cancel_left (p x y : String) (h : p ++ x = p ++ y) : x = y := by
  apply String.ext
  have := congrArg String.data h
  simpa using this

theorem slash_split (a : List Char) : ∀ (b x y : List Char), '/' ∉ a → '/' ∉ b →
    a ++ '/' :: x = b ++ '/' :: y → a = b := by
  induction a with
  | nil =>
    intro b x y _ hb h
    cases b with
    | nil => rfl
    | cons c b' =>
      simp only [List.nil_append, List.cons_append, List.cons.injEq] at h
      exact absurd (by simp [← h.1]) hb
  | cons c a' ih =>
    intro b x y ha hb h
    cases b with
    | nil =>
      simp only [List.nil_append, List.cons_append, List.cons.injEq] at h
      exact absurd (by simp [h.1]) ha
    | cons c' b' =>
      simp only [List.cons_append, List.cons.injEq] at h
      have ha' : '/' ∉ a' := fun hm => ha (List.mem_cons_of_mem _ hm)
      have hb' : '/' ∉ b' := fun hm => hb (List.mem_cons_of_mem _ hm)
      rw [h.1, ih b' x y ha' hb' h.2]

theorem localPaths_shape (ts : Listing) (p : String) (h : p ∈ Listing.localPaths ts) :
    p ∈ Listing.siblings ts ∨ ∃ n ∈ Listing.siblings ts, ∃ y, p = n ++ "/" ++ y := by
  induction ts with
  | nil => simp [Listing.localPaths] at h
  | file name rest ih =>
    simp only [Listing.localPaths, List.mem_cons] at h
    rcases h with h | h
    · exact Or.inl (by simp [Listing.siblings, h])
    · rcases ih h with h' | ⟨n, hn, y, hy⟩
      · exact Or.inl (by simp [Listing.siblings, h'])
      · exact Or.inr ⟨n, by simp [Listing.siblings, hn], y, hy⟩
  | dir name readable sub rest _ ihr =>
    simp only [Listing.localPaths, List.mem_append, List.mem_map] at h
    rcases h with ⟨y, _, hy⟩ | h
    · exact Or.inr ⟨name, by simp [Listing.siblings], y, hy.symm⟩
    · rcases ihr h with h' | ⟨n, hn, y, hy⟩
      · exact Or.inl (by simp [Listing.siblings, h'])
      · exact Or.inr ⟨n, by simp [Listing.siblings, hn], y, hy⟩

theorem not_mem_localPaths (ts : Listing) (name : String) (h1 : '/' ∉ name.data)
    (h2 : name ∉ Listing.siblings ts) : name ∉ Listing.localPaths ts := by
  intro hm
  rcases localPaths_shape ts name hm with h | ⟨n, _, y, hy⟩
  · exact h2 h
  · apply h1
    rw [hy]
    simp

theorem slash_path_not_mem_localPaths (ts : Listing) (name y : String)
    (hw : ts.wellNamed = true) (h1 : '/' ∉ name.data)
    (h2 : name ∉ Listing.siblings ts) : name ++ "/" ++ y ∉ Listing.localPaths ts := by
  induction ts with
  | nil => simp [Listing.localPaths]
  | file n rest ih =>
    simp only [Listing.wellNamed, Bool.and_eq_true, decide_eq_true_eq] at hw
    obtain ⟨⟨hn, _⟩, hr⟩ := hw
    simp only [Listing.siblings, List.mem_cons, not_or] at h2
    simp only [Listing.localPaths, List.mem_cons, not_or]
    refine ⟨?_, ih hr h2.2⟩
    intro he
    apply hn
    rw [← he]
    simp
  | dir n readable sub rest _ ihr =>
    simp only [Listing.wellNamed, Bool.and_eq_true, decide_eq_true_eq] at hw
    obtain ⟨⟨⟨hn, _⟩, _⟩, hr⟩ := hw
    simp only [Listing.siblings, List.mem_cons, not_or] at h2
    simp only [Listing.localPaths, List.mem_append, List.mem_map, not_or]
    refine ⟨?_, ihr hr h2.2⟩
    rintro ⟨z, _, hz⟩
    apply h2.1
    have hd := congrArg String.data hz
    simp only [String.data_append] at hd
    simp only [List.append_assoc, List.singleton_append] at hd
    exact String.ext (slash_split _ _ _ _ hn h1 hd).symm

theorem nodup_localPaths (ts : Listing) (hw : ts.wellNamed = true) :
    (Listing.localPaths ts).Nodup := by
  induction ts with
  | nil => simp [Listing.localPaths]
  | file n rest ih =>
    simp only [Listing.wellNamed, Bool.and_eq_true, decide_eq_true_eq] at hw
    obtain ⟨⟨hn, hs⟩, hr⟩ := hw
    simp only [Listing.localPaths]
    exact List.nodup_cons.mpr ⟨not_mem_localPaths rest n hn hs, ih hr⟩
  | dir n readable sub rest ihs ihr =>
    simp only [Listing.wellNamed, Bool.and_eq_true, decide_eq_true_eq] at hw
    obtain ⟨⟨⟨hn, hs⟩, hsub⟩, hr⟩ := hw
    simp only [Listing.localPaths]
    refine List.Nodup.append ?_ (ihr hr) ?_
    · exact (ihs hsub).map (fun a b hab => string_append_cancel_left _ a b hab)
    · intro p hp hq
      simp only [List.mem_map] at hp
      obtain ⟨y, _, rfl⟩ := hp
      exact slash_path_not_mem_localPaths rest n y hr hn hs hq

theorem nodup_logicalNames (ts : Listing) (hw : ts.wellNamed = true) :
    (logicalNames ts).Nodup := by
  have h1 : ((Listing.entries [] ts).map relPath).Nodup := by
    rw [map_relPath_entries]
    exact (nodup_localPaths ts hw).map (fun a b hab => string_append_cancel_left _ a b hab)
  exact h1.sublist (List.Sublist.map _ (List.filter_sublist _))

theorem LoadResult.andThen_eq_ok {Tpl : Type} {r : LoadResult Tpl}
    {next : Store Tpl → LoadResult Tpl} {s : Store Tpl} (h : r.andThen next = .ok s) :
    ∃ s0, r = .ok s0 ∧ next s0 = .ok s := by
  cases r with
  | panic s0 => simp [LoadResult.andThen] at h
  | ok s0 => exact ⟨s0, rfl, h⟩

theorem loadEntries_ok_names {Tpl : Type} (compile : String → List String → Option Tpl)
    (ts : Listing) : ∀ (dirs : List String) (st s : Store Tpl), ts.noDots = true →
      loadEntries compile (subdirOf dirs) ts st = .ok s →
      ∀ k ∈ Listing.names dirs ts, k ∈ Store.keys s := by
  induction ts with
  | nil =>
    intro dirs st s _ _ k hk
    simp [names_nil] at hk
  | file name rest ih =>
    intro dirs st s hd h k hk
    have hd' : rest.noDots = true := by simpa [Listing.noDots] using hd
    rw [loadEntries_file] at h
    obtain ⟨s0, h0, h1⟩ := LoadResult.andThen_eq_ok h
    rw [names_file] at hk
    rcases List.mem_append.mp hk with hk' | hk'
    · by_cases hb : fullPath (dirs, name) ∈ baseTemplates
      · simp [hb] at hk'
      · rw [if_neg hb, List.mem_singleton] at hk'
        rw [loadFile_eq, if_neg hb] at h0
        cases hc : compile name (fullPath (dirs, name) :: baseTemplates) with
        | none => simp [hc] at h0
        | some t =>
          simp only [hc, LoadResult.ok.injEq] at h0
          have hx := loadEntries_extends compile rest dirs s0 hd'
          rw [h1] at hx
          refine hx.1 k ?_
          rw [← h0, Store.mem_keys_set]
          exact Or.inl hk'
    · exact ih dirs s0 s hd' h1 k hk'
  | dir name readable sub rest ihs ihr =>
    intro dirs st s hd h k hk
    simp only [Listing.noDots, Bool.and_eq_true, decide_eq_true_eq] at hd
    obtain ⟨⟨hn, hds⟩, hdr⟩ := hd
    rw [loadEntries_dir _ _ _ _ _ _ _ hn] at h
    cases readable with
    | false => simp at h
    | true =>
      simp only [if_true] at h
      obtain ⟨s0, h0, h1⟩ := LoadResult.andThen_eq_ok h
      rw [← subdirOf_snoc] at h0
      rw [names_dir] at hk
      rcases List.mem_append.mp hk with hk' | hk'
      · have hx := loadEntries_extends compile rest dirs s0 hdr
        rw [h1] at hx
        exact hx.1 k (ihs (dirs ++ [name]) st s0 hds h0 k hk')
      · exact ihr dirs s0 s hdr h1 k hk'

theorem loadEntries_get_names {Tpl : Type} (compile : String → List String → Option Tpl)
    (ts : Listing) : ∀ (dirs : List String) (st st' s s' : Store Tpl), ts.noDots = true →
      loadEntries compile (subdirOf dirs) ts st = .ok s →
      loadEntries compile (subdirOf dirs) ts st' = .ok s' →
      ∀ k ∈ Listing.names dirs ts, Store.get s k = Store.get s' k := by
  induction ts with
  | nil =>
    intro dirs st st' s s' _ _ _ k hk
    simp [names_nil] at hk
  | file name rest ih =>
    intro dirs st st' s s' hd h h' k hk
    have hd' : rest.noDots = true := by simpa [Listing.noDots] using hd
    rw [loadEntries_file] at h h'
    obtain ⟨s0, h0, h1⟩ := LoadResult.andThen_eq_ok h
    obtain ⟨s0', h0', h1'⟩ := LoadResult.andThen_eq_ok h'
    by_cases hr : k ∈ Listing.names dirs rest
    · exact ih dirs s0 s0' s s' hd' h1 h1' k hr
    · rw [names_file] at hk
      rcases List.mem_append.mp hk with hk' | hk'
      · have hx := loadEntries_extends compile rest dirs s0 hd'
        have hx' := loadEntries_extends compile rest dirs s0' hd'
        rw [h1] at hx
        rw [h1'] at hx'
        have e1 : Store.get s k = Store.get s0 k := hx.2.2.1 k hr
        have e2 : Store.get s' k = Store.get s0' k := hx'.2.2.1 k hr
        rw [e1, e2]
        by_cases hb : fullPath (dirs, name) ∈ baseTemplates
        · simp [hb] at hk'
        · rw [if_neg hb, List.mem_singleton] at hk'
          rw [loadFile_eq, if_neg hb] at h0 h0'
          cases hc : compile name (fullPath (dirs, name) :: baseTemplates) with
          | none => simp [hc] at h0
          | some t =>
            simp only [hc, LoadResult.ok.injEq] at h0 h0'
            rw [← h0, ← h0', hk', Store.get_set_self, Store.get_set_self]
      · exact absurd hk' hr
  | dir name readable sub rest ihs ihr =>
    intro dirs st st' s s' hd h h' k hk
    simp only [Listing.noDots, Bool.and_eq_true, decide_eq_true_eq] at hd
    obtain ⟨⟨hn, hds⟩, hdr⟩ := hd
    rw [loadEntries_dir _ _ _ _ _ _ _ hn] at h h'
    cases readable with
    | false => simp at h
    | true =>
      simp only [if_true] at h h'
      obtain ⟨s0, h0, h1⟩ := LoadResult.andThen_eq_ok h
      obtain ⟨s0', h0', h1'⟩ := LoadResult.andThen_eq_ok h'
      rw [← subdirOf_snoc] at h0 h0'
      by_cases hr : k ∈ Listing.names dirs rest
      · exact ihr dirs s0 s0' s s' hdr h1 h1' k hr
      · rw [names_dir] at hk
        rcases List.mem_append.mp hk with hk' | hk'
        · have hx := loadEntries_extends compile rest dirs s0 hdr
          have hx' := loadEntries_extends compile rest dirs s0' hdr
          rw [h1] at hx
          rw [h1'] at hx'
          have e1 : Store.get s k = Store.get s0 k := hx.2.2.1 k hr
          have e2 : Store.get s' k = Store.get s0' k := hx'.2.2.1 k hr
          rw [e1, e2]
          exact ihs (dirs ++ [name]) st st' s0 s0' hds h0 h0' k hk'
        · exact absurd hk' hr

theorem loadTemplates_eq_loadEntries {Tpl : Type}
    (compile : String → List String → Option Tpl) (d : Root) (st s : Store Tpl)
    (h : loadTemplates compile d "" st = .ok s) :
    loadEntries compile (subdirOf []) d.entries st = .ok s := by
  unfold loadTemplates at h
  cases hr : d.readable with
  | false => simp [hr] at h
  | true => simpa [hr, subdirOf_nil] using h

theorem validTree_siteTree : ValidTree acceptAll siteTree :=
  ⟨rfl, by decide, by decide, fun _ _ _ => rfl⟩

theorem validTree_homeTree : ValidTree acceptAll homeTree :=
  ⟨rfl, by decide, by decide, fun _ _ _ => rfl⟩

/-! ## The loader: claims C1, C7, C8, C9 -/

/-- C1. On a template tree whose directories can be read and whose non-layout
files all compile, `loadTemplates("")` run on an empty store returns, and the
keys of the store are exactly the relative paths of the files whose full path
is not a layout file: the same set, no key twice, no key that names a layout
file, and, when the names are those of a file system, one key for each such
file (the keys are a rearrangement of the list of files). -/
theorem loadTemplates_empty_store_keys {Tpl : Type}
    (compile : String → List String → Option Tpl) (d : Root)
    (h : ValidTree compile d) :
    ∃ s, loadTemplates compile d "" [] = .ok s ∧
      (∀ k, k ∈ Store.keys s ↔ k ∈ logicalNames d.entries) ∧
      (Store.keys s).Nodup ∧
      (∀ k ∈ Store.keys s, "templates/" ++ k ∉ baseTemplates) ∧
      (d.entries.wellNamed = true → (Store.keys s).Perm (logicalNames d.entries)) := by
  obtain ⟨s, hs, hk, _, hn⟩ := loadTemplates_valid compile d [] h
  have hk' : ∀ k, k ∈ Store.keys s ↔ k ∈ logicalNames d.entries := by
    intro k
    rw [hk k]
    simp [Store.keys]
  have hnd : (Store.keys s).Nodup := hn (by simp [Store.keys])
  refine ⟨s, hs, hk', hnd, ?_, ?_⟩
  · intro k hks
    exact not_layout_of_mem_names [] d.entries k ((hk' k).mp hks)
  · intro hw
    exact (List.perm_ext_iff_of_nodup hnd (nodup_logicalNames d.entries hw)).mpr hk'

/-- C1, on the tree `base.html`, `navbar.html`, `home.html`,
`admin/users.html`: the store holds exactly `home.html` and
`admin/users.html`. -/
theorem loadTemplates_empty_store_keys_witness :
    ValidTree acceptAll siteTree ∧
    (∃ s, loadTemplates acceptAll siteTree "" [] = .ok s ∧
      (∀ k, k ∈ Store.keys s ↔ k ∈ logicalNames siteTree.entries) ∧
      (Store.keys s).Nodup ∧
      (∀ k ∈ Store.keys s, "templates/" ++ k ∉ baseTemplates) ∧
      (siteTree.entries.wellNamed = true →
        (Store.keys s).Perm (logicalNames siteTree.entries))) ∧
    siteTree.entries.wellNamed = true ∧
    (loadTemplates acceptAll siteTree "" []).store.keys = ["home.html", "admin/users.html"] :=
  ⟨validTree_siteTree,
    loadTemplates_empty_store_keys acceptAll siteTree validTree_siteTree,
    by decide, by decide⟩

/-- C7, refuted: with `old.html` in the store, a reload of the tree `a.html`,
`b.html`, `base.html`, `navbar.html` in which `b.html` does not compile
panics at `b.html`, after `a.html` was compiled with the layout files and
stored, and leaves a store that is not the previous one: it holds the new
`a.html` beside the old `old.html`. -/
theorem loadTemplates_failed_reload_changes_store :
    (loadTemplates rejectB abTree "" staleStore).isOk = false ∧
    (loadTemplates rejectB abTree "" staleStore).store ≠ staleStore ∧
    "a.html" ∈ (loadTemplates rejectB abTree "" staleStore).store.keys ∧
    "a.html" ∉ Store.keys staleStore ∧
    "old.html" ∈ (loadTemplates rejectB abTree "" staleStore).store.keys := by
  decide

/-- C7, amended. A reload writes into the live store entry by entry. Whether
it returns or panics part-way, the store it leaves keeps every key of the
previous store, has no other keys than logical names of the tree, and holds
the previous entry under every key that is not such a name; when the reload
returns, every logical name of the tree is a key. -/
theorem loadTemplates_writes_in_place {Tpl : Type}
    (compile : String → List String → Option Tpl) (d : Root) (S : Store Tpl)
    (h : d.entries.noDots = true) :
    (∀ k ∈ Store.keys S, k ∈ (loadTemplates compile d "" S).store.keys) ∧
    (∀ k ∈ (loadTemplates compile d "" S).store.keys,
      k ∈ Store.keys S ∨ k ∈ logicalNames d.entries) ∧
    (∀ k, k ∉ logicalNames d.entries →
      (loadTemplates compile d "" S).store.get k = Store.get S k) ∧
    ((loadTemplates compile d "" S).isOk = true →
      ∀ k ∈ logicalNames d.entries, k ∈ (loadTemplates compile d "" S).store.keys) := by
  have hx := loadTemplates_extends compile d S h
  refine ⟨hx.1, hx.2.1, hx.2.2.1, ?_⟩
  intro hok k hk
  cases hr : loadTemplates compile d "" S with
  | panic s => simp [hr, LoadResult.isOk] at hok
  | ok s =>
    exact loadEntries_ok_names compile d.entries [] S s h
      (loadTemplates_eq_loadEntries compile d S s hr) k hk

/-- C7, amended, on the reload of `a.html`, `b.html`, `base.html`,
`navbar.html` that fails at `b.html`. -/
theorem loadTemplates_writes_in_place_witness :
    abTree.entries.noDots = true ∧
    ((∀ k ∈ Store.keys staleStore, k ∈ (loadTemplates rejectB abTree "" staleStore).store.keys) ∧
    (∀ k ∈ (loadTemplates rejectB abTree "" staleStore).store.keys,
      k ∈ Store.keys staleStore ∨ k ∈ logicalNames abTree.entries) ∧
    (∀ k, k ∉ logicalNames abTree.entries →
      (loadTemplates rejectB abTree "" staleStore).store.get k = Store.get staleStore k) ∧
    ((loadTemplates rejectB abTree "" staleStore).isOk = true →
      ∀ k ∈ logicalNames abTree.entries,
        k ∈ (loadTemplates rejectB abTree "" staleStore).store.keys)) :=
  ⟨by decide, loadTemplates_writes_in_place rejectB abTree staleStore (by decide)⟩

/-- C8, refuted: with `old.html` in the store, a load of the tree `base.html`,
`home.html`, `navbar.html`, which compiles, leaves `old.html` in the store
although the tree has no such file; the key set is not the set of logical
names of the tree. -/
theorem loadTemplates_keeps_stale_entry :
    ValidTree acceptAll homeTree ∧
    "old.html" ∈ (loadTemplates acceptAll homeTree "" staleStore).store.keys ∧
    "old.html" ∉ logicalNames homeTree.entries ∧
    ¬ (∀ k, k ∈ (loadTemplates acceptAll homeTree "" staleStore).store.keys ↔
      k ∈ logicalNames homeTree.entries) := by
  refine ⟨validTree_homeTree, by decide, by decide, ?_⟩
  intro hall
  exact absurd ((hall "old.html").mp (by decide)) (by decide)

/-- C8, amended. On a tree that compiles, `loadTemplates("")` returns with a
store whose keys are the keys of the previous store together with the logical
names of the tree, and an entry of the previous store whose key is not a
logical name of the tree is still there, unchanged. -/
theorem loadTemplates_keys_union {Tpl : Type}
    (compile : String → List String → Option Tpl) (d : Root) (S : Store Tpl)
    (h : ValidTree compile d) :
    ∃ s, loadTemplates compile d "" S = .ok s ∧
      (∀ k, k ∈ Store.keys s ↔ k ∈ Store.keys S ∨ k ∈ logicalNames d.entries) ∧
      (∀ k, k ∉ logicalNames d.entries → Store.get s k = Store.get S k) := by
  obtain ⟨s, hs, hk, hg, _⟩ := loadTemplates_valid compile d S h
  exact ⟨s, hs, hk, hg⟩

/-- C8, amended, on the load that keeps `old.html`. -/
theorem loadTemplates_keys_union_witness :
    ValidTree acceptAll homeTree ∧
    ∃ s, loadTemplates acceptAll homeTree "" staleStore = .ok s ∧
      (∀ k, k ∈ Store.keys s ↔ k ∈ Store.keys staleStore ∨ k ∈ logicalNames homeTree.entries) ∧
      (∀ k, k ∉ logicalNames homeTree.entries → Store.get s k = Store.get staleStore k) :=
  ⟨validTree_homeTree, loadTemplates_keys_union acceptAll homeTree staleStore validTree_homeTree⟩

/-- C9. On a tree that compiles and a store that is a map (no key twice),
`loadTemplates("")` run twice in succession returns both times; the second
run leaves the same keys as the first, each key once, and under every key the
same entry as the first run left. -/
theorem loadTemplates_twice {Tpl : Type}
    (compile : String → List String → Option Tpl) (d : Root) (S : Store Tpl)
    (hS : (Store.keys S).Nodup) (h : ValidTree compile d) :
    ∃ s1 s2, loadTemplates compile d "" S = .ok s1 ∧
      loadTemplates compile d "" s1 = .ok s2 ∧
      (∀ k, k ∈ Store.keys s2 ↔ k ∈ Store.keys s1) ∧
      (Store.keys s1).Nodup ∧ (Store.keys s2).Nodup ∧
      (Store.keys s2).Perm (Store.keys s1) ∧
      (∀ k, Store.get s2 k = Store.get s1 k) := by
  obtain ⟨s1, h1, hk1, _, hn1⟩ := loadTemplates_valid compile d S h
  obtain ⟨s2, h2, hk2, hg2, hn2⟩ := loadTemplates_valid compile d s1 h
  have hkeys : ∀ k, k ∈ Store.keys s2 ↔ k ∈ Store.keys s1 := by
    intro k
    rw [hk2 k, hk1 k]
    tauto
  refine ⟨s1, s2, h1, h2, hkeys, hn1 hS, hn2 (hn1 hS), ?_, ?_⟩
  · exact (List.perm_ext_iff_of_nodup (hn2 (hn1 hS)) (hn1 hS)).mpr hkeys
  · intro k
    by_cases hk : k ∈ logicalNames d.entries
    · exact loadEntries_get_names compile d.entries [] s1 S s2 s1 h.noDots
        (loadTemplates_eq_loadEntries compile d s1 s2 h2)
        (loadTemplates_eq_loadEntries compile d S s1 h1) k hk
    · exact hg2 k hk

/-- C9, on the tree `base.html`, `navbar.html`, `home.html`,
`admin/users.html` and a store that holds `old.html`. -/
theorem loadTemplates_twice_witness :
    (Store.keys staleStore).Nodup ∧ ValidTree acceptAll siteTree ∧
    ∃ s1 s2, loadTemplates acceptAll siteTree "" staleStore = .ok s1 ∧
      loadTemplates acceptAll siteTree "" s1 = .ok s2 ∧
      (∀ k, k ∈ Store.keys s2 ↔ k ∈ Store.keys s1) ∧
      (Store.keys s1).Nodup ∧ (Store.keys s2).Nodup ∧
      (Store.keys s2).Perm (Store.keys s1) ∧
      (∀ k, Store.get s2 k = Store.get s1 k) :=
  ⟨by decide, validTree_siteTree,
    loadTemplates_twice acceptAll siteTree staleStore (by decide) validTree_siteTree⟩

/-! ## The renderer: claims C2 to C6 -/

theorem getHeader_Header_self {Cx Err : Type} (c : GinContext Cx Err) (k v : String) :
    (c.Header k v).getHeader k = some v := by
  simp [GinContext.Header, GinContext.getHeader]

theorem find_filter_ne (l : List (String × String)) (k key : String) (h : k ≠ key) :
    (l.filter (fun p => !decide (p.1 = key))).find? (fun p => decide (p.1 = k)) =
      l.find? (fun p => decide (p.1 = k)) := by
  induction l with
  | nil => rfl
  | cons p rest ih =>
    obtain ⟨a, b⟩ := p
    by_cases hp : a = key
    · subst hp
      have hk : ¬ a = k := fun e => h e.symm
      simp [List.filter_cons, List.find?_cons, hk, ih]
    · by_cases hk : a = k
      · subst hk
        simp [List.filter_cons, List.find?_cons, hp]
      · simp [List.filter_cons, List.find?_cons, hp, hk, ih]

theorem getHeader_Header_ne {Cx Err : Type} (c : GinContext Cx Err) (key v k : String)
    (h : k ≠ key) : (c.Header key v).getHeader k = c.getHeader k := by
  have hk : ¬ key = k := fun e => h e.symm
  simp only [GinContext.Header, GinContext.getHeader, List.find?_cons, hk, decide_False]
  rw [find_filter_ne _ _ _ h]

theorem getHeader_of_headers {Cx Err : Type} (c1 c2 : GinContext Cx Err) (k : String)
    (h : c1.headers = c2.headers) : c1.getHeader k = c2.getHeader k := by
  simp [GinContext.getHeader, h]

theorem write_fields {Cx Err : Type} (c : GinContext Cx Err) (text : String) :
    (c.write text).1.status = c.status ∧ (c.write text).1.saves = c.saves ∧
    (c.write text).1.headers = c.headers ∧ (c.write text).1.errors = c.errors ∧
    (c.sinkFault = none → (c.write text).1.body = c.body ++ text ∧ (c.write text).2 = none) := by
  cases hf : c.sinkFault with
  | none => simp [GinContext.write, hf]
  | some fe =>
    obtain ⟨n, e⟩ := fe
    simp [GinContext.write, hf]

theorem string_eq {Cx Err : Type} (c : GinContext Cx Err) (code : Int) (text : String) :
    ∃ c0 : GinContext Cx Err,
      c0 = (if (c.Status code).getHeader "Content-Type" = none then
        (c.Status code).Header "Content-Type" plainContentType else c.Status code) ∧
      (c.string code text).status = c0.status ∧
      (c.string code text).saves = c0.saves ∧
      (c.string code text).headers = c0.headers ∧
      (c0.sinkFault = none → (c.string code text).body = c0.body ++ text ∧
        (c.string code text).errors = c0.errors) := by
  refine ⟨_, rfl, ?_⟩
  obtain ⟨w1, w2, w3, w4, w5⟩ := write_fields
    (if (c.Status code).getHeader "Content-Type" = none then
      (c.Status code).Header "Content-Type" plainContentType else c.Status code) text
  unfold GinContext.string
  simp only
  rcases hw : GinContext.write
    (if (c.Status code).getHeader "Content-Type" = none then
      (c.Status code).Header "Content-Type" plainContentType else c.Status code) text
    with ⟨c2, err⟩
  rw [hw] at w1 w2 w3 w4 w5
  simp only at w1 w2 w3 w4 w5
  cases err with
  | none => exact ⟨w1, w2, w3, fun hf => ⟨(w5 hf).1, w4⟩⟩
  | some e =>
    refine ⟨w1, w2, w3, fun hf => ?_⟩
    have := (w5 hf).2
    cases this

theorem string_spec {Cx Err : Type} (c : GinContext Cx Err) (code : Int) (text : String)
    (hpos : code > 0) :
    (c.string code text).status = code ∧
    (c.string code text).saves = c.saves ∧
    (c.sinkFault = none → (c.string code text).body = c.body ++ text ∧
      (c.string code text).errors = c.errors) ∧
    (c.getHeader "Content-Type" = none →
      (c.string code text).getHeader "Content-Type" = some plainContentType) ∧
    (∀ v, c.getHeader "Content-Type" = some v → (c.string code text).headers = c.headers) ∧
    (∀ k, k ≠ "Content-Type" → (c.string code text).getHeader k = c.getHeader k) := by
  have hst : (c.Status code) = { c with status := code } := by simp [GinContext.Status, hpos]
  have hget : ∀ k, GinContext.getHeader { c with status := code } k = c.getHeader k :=
    fun _ => rfl
  obtain ⟨c0, hc0, e1, e2, e3, e4⟩ := string_eq c code text
  rw [hst, hget] at hc0
  cases hct : c.getHeader "Content-Type" with
  | none =>
    rw [hct, if_pos rfl] at hc0
    subst hc0
    refine ⟨e1, e2, e4, fun _ => ?_, fun v hv => (nomatch hv), fun k hk => ?_⟩
    · rw [getHeader_of_headers _ _ _ e3]
      exact getHeader_Header_self _ _ _
    · rw [getHeader_of_headers _ _ _ e3, getHeader_Header_ne _ _ _ _ hk]
      rfl
  | some v =>
    rw [hct, if_neg (by simp)] at hc0
    subst hc0
    refine ⟨e1, e2, e4, fun hn => (nomatch hn), fun _ _ => e3, fun k _ => ?_⟩
    rw [getHeader_of_headers _ _ _ e3]
    rfl

/-- C2, refuted: on the name "missing.html", with no header set beforehand,
`resp` leaves the response with the Content-Type header
"text/plain; charset=utf-8", set by the `c.String` call it makes. -/
theorem resp_unknown_template_sets_content_type :
    Store.get demoStore "missing.html" = none ∧
    demoContext.getHeader "Content-Type" = none ∧
    ((resp demoStore demoMessages demoExecute (some demoContext) 200 "missing.html"
        (.plain "x")).c.map (fun c => c.getHeader "Content-Type")) =
      some (some "text/plain; charset=utf-8") := by
  decide

/-- C2, amended. For a request context, any status code, any data value and a
template name that is not in the store, `resp` returns after the single call
`c.String(500, "Template not found! Please tell this to a dev!")`: the status
is 500 and the diagnostic is what goes to the sink (all of it, with no error
recorded, when the sink takes it). `resp` makes no `c.Header` call of its
own, but `c.String` sets Content-Type to "text/plain; charset=utf-8" when
the response has none yet; a Content-Type that is already there and every
other header stay as they were. The session is not saved, no template is
executed and the data value is not touched. -/
theorem resp_unknown_template {Tpl Msg Cx Err Val : Type} (templates : Store Tpl)
    (getMessages : GinContext Cx Err → List Msg)
    (execute : Tpl → String → Data Msg Cx Val → String × Option Err)
    (c : GinContext Cx Err) (statusCode : Int) (tpl : String) (data : Data Msg Cx Val)
    (h : Store.get templates tpl = none) :
    ∃ c', (resp templates getMessages execute (some c) statusCode tpl data).c = some c' ∧
      (resp templates getMessages execute (some c) statusCode tpl data).panicked = false ∧
      (resp templates getMessages execute (some c) statusCode tpl data).data = data ∧
      (resp templates getMessages execute (some c) statusCode tpl data).log =
        [.string 500 notFoundMessage] ∧
      c'.status = 500 ∧
      (c.sinkFault = none → c'.body = c.body ++ notFoundMessage ∧ c'.errors = c.errors) ∧
      (c.getHeader "Content-Type" = none →
        c'.getHeader "Content-Type" = some "text/plain; charset=utf-8") ∧
      (∀ v, c.getHeader "Content-Type" = some v → c'.headers = c.headers) ∧
      (∀ k, k ≠ "Content-Type" → c'.getHeader k = c.getHeader k) ∧
      c'.saves = c.saves ∧
      (∀ e ∈ (resp templates getMessages execute (some c) statusCode tpl data).log,
        e.isHeader = false ∧ e.isExecute = false ∧ e.isSave = false) := by
  obtain ⟨h1, h2, h3, h4, h5, h6⟩ := string_spec c 500 notFoundMessage (by decide)
  refine ⟨c.string 500 notFoundMessage, ?_⟩
  simp only [resp, h, true_and]
  refine ⟨h1, h3, h4, h5, h6, h2, ?_⟩
  intro e he
  simp only [List.mem_singleton] at he
  subst he
  exact ⟨rfl, rfl, rfl⟩

theorem bindPage_no_panic {Msg Cx Err Val : Type} (getMessages : GinContext Cx Err → List Msg)
    (c : GinContext Cx Err) (data : Data Msg Cx Val)
    (hc : data.isPage = true → c.context.isSome = true) :
    (bindPage getMessages c data).2.2 = false := by
  cases data with
  | plain v => rfl
  | page b =>
    obtain ⟨x, hx⟩ := Option.isSome_iff_exists.mp (hc rfl)
    simp [bindPage, hx]

theorem bindPage_calls_not_write {Msg Cx Err Val : Type}
    (getMessages : GinContext Cx Err → List Msg)
    (c : GinContext Cx Err) (data : Data Msg Cx Val) :
    ∀ e ∈ (bindPage getMessages c data).2.1, e.isWrite = false ∧ e.isSave = false := by
  cases data with
  | plain v => simp [bindPage]
  | page b =>
    cases hx : c.context <;> simp [bindPage, hx, Event.isWrite, Event.isSave]

/-- C3. For a request context that carries the session (and the context value
when the data is a page), a known template and an execution of "base" that
returns the error `e`: `resp` returns, having saved the session, executed,
written the apology with `c.Writer.WriteString` and recorded `e` with
`c.Error`, in that order and nothing else after the binders. The headers and
the status are as they were (no Content-Type, no status code set), the
apology is what goes to the sink (all of it when the sink takes it, and
nothing of the buffer), and `e` is recorded once. -/
theorem resp_execution_error {Tpl Msg Cx Err Val : Type} (templates : Store Tpl)
    (getMessages : GinContext Cx Err → List Msg)
    (execute : Tpl → String → Data Msg Cx Val → String × Option Err)
    (c : GinContext Cx Err) (statusCode : Int) (tpl : String) (data : Data Msg Cx Val)
    (t : Tpl) (e : Err)
    (hk : Store.get templates tpl = some t)
    (hs : c.session = true)
    (hc : data.isPage = true → c.context.isSome = true)
    (he : (execute t "base" (bindPage getMessages c data).1).2 = some e) :
    ∃ c', (resp templates getMessages execute (some c) statusCode tpl data).c = some c' ∧
      (resp templates getMessages execute (some c) statusCode tpl data).panicked = false ∧
      (resp templates getMessages execute (some c) statusCode tpl data).log =
        (bindPage getMessages c data).2.1 ++
          [.save, .execute "base", .writeString apologyMessage, .error e] ∧
      c'.headers = c.headers ∧
      c'.getHeader "Content-Type" = c.getHeader "Content-Type" ∧
      c'.status = c.status ∧
      (c.sinkFault = none → c'.body = c.body ++ apologyMessage) ∧
      c'.errors = c.errors ++ [e] ∧
      c'.saves = c.saves + 1 := by
  have hb := bindPage_no_panic getMessages c data hc
  rcases hbp : bindPage getMessages c data with ⟨data', calls, p⟩
  rw [hbp] at hb he
  simp only at hb he
  subst hb
  rcases hex : execute t "base" data' with ⟨buf, err⟩
  rw [hex] at he
  simp only at he
  subst he
  refine ⟨(c.Save.WriteString apologyMessage).Error e, ?_⟩
  simp only [resp, hk, hbp, hs, hex, if_true, true_and]
  cases hf : c.sinkFault <;>
    simp [GinContext.Error, GinContext.WriteString, GinContext.write, GinContext.Save,
      GinContext.getHeader, hf]

/-- C4. For a request context that carries the session (and the context value
when the data is a page), a status code `s` (a positive integer, which is
what gin's `c.Status` takes), a known template whose execution succeeds
leaving the bytes `B`, and a sink that takes what it is given: `resp` returns
with Content-Type set to "text/html; charset=utf-8", the status `s`, exactly
`B` added to the body, the session saved, and no error recorded. -/
theorem resp_success {Tpl Msg Cx Err Val : Type} (templates : Store Tpl)
    (getMessages : GinContext Cx Err → List Msg)
    (execute : Tpl → String → Data Msg Cx Val → String × Option Err)
    (c : GinContext Cx Err) (s : Int) (tpl : String) (data : Data Msg Cx Val)
    (t : Tpl) (B : String)
    (hk : Store.get templates tpl = some t)
    (hs : c.session = true)
    (hc : data.isPage = true → c.context.isSome = true)
    (he : execute t "base" (bindPage getMessages c data).1 = (B, none))
    (hsink : c.sinkFault = none) (hpos : 0 < s) :
    ∃ c', (resp templates getMessages execute (some c) s tpl data).c = some c' ∧
      (resp templates getMessages execute (some c) s tpl data).panicked = false ∧
      (resp templates getMessages execute (some c) s tpl data).log =
        (bindPage getMessages c data).2.1 ++
          [.save, .execute "base", .header "Content-Type" "text/html; charset=utf-8",
            .status s, .copy B] ∧
      c'.getHeader "Content-Type" = some "text/html; charset=utf-8" ∧
      c'.status = s ∧
      c'.body = c.body ++ B ∧
      c'.errors = c.errors ∧
      c'.saves = c.saves + 1 := by
  have hb := bindPage_no_panic getMessages c data hc
  rcases hbp : bindPage getMessages c data with ⟨data', calls, p⟩
  rw [hbp] at hb he
  simp only at hb he
  subst hb
  refine ⟨(((c.Save.Header "Content-Type" "text/html; charset=utf-8").Status s).Copy B).1, ?_⟩
  by_cases hB : B = ""
  · simp [resp, hk, hbp, hs, he, hB, GinContext.Copy, GinContext.Status, GinContext.Header,
      GinContext.Save, GinContext.getHeader, hpos]
  · simp [resp, hk, hbp, hs, he, hB, GinContext.Copy, GinContext.Status, GinContext.Header,
      GinContext.Save, GinContext.getHeader, GinContext.write, hsink, hpos]

theorem resp_data_log {Tpl Msg Cx Err Val : Type} (templates : Store Tpl)
    (getMessages : GinContext Cx Err → List Msg)
    (execute : Tpl → String → Data Msg Cx Val → String × Option Err)
    (c : GinContext Cx Err) (statusCode : Int) (tpl : String) (data : Data Msg Cx Val)
    (t : Tpl) (hk : Store.get templates tpl = some t) :
    (resp templates getMessages execute (some c) statusCode tpl data).data =
        (bindPage getMessages c data).1 ∧
      ∃ rest, (resp templates getMessages execute (some c) statusCode tpl data).log =
          (bindPage getMessages c data).2.1 ++ rest ∧
        (∀ e ∈ rest, e.isBinder = false) ∧
        ((resp templates getMessages execute (some c) statusCode tpl data).panicked = true →
          rest = []) ∧
        ((resp templates getMessages execute (some c) statusCode tpl data).panicked = false →
          ∃ post, rest = .save :: post ∧ ∀ e ∈ post, e.isSave = false) := by
  rcases hbp : bindPage getMessages c data with ⟨data', calls, p⟩
  cases p with
  | true => simp [resp, hk, hbp]
  | false =>
    cases hs : c.session with
    | false => simp [resp, hk, hbp, hs]
    | true =>
      rcases hex : execute t "base" data' with ⟨buf, err⟩
      cases err with
      | some e => simp [resp, hk, hbp, hs, hex, Event.isBinder, Event.isSave]
      | none =>
        rcases hcp : GinContext.Copy
          ((c.Save.Header "Content-Type" "text/html; charset=utf-8").Status statusCode) buf
          with ⟨c2, err2⟩
        cases err2 with
        | some e => simp [resp, hk, hbp, hs, hex, hcp, Event.isBinder, Event.isSave]
        | none => simp [resp, hk, hbp, hs, hex, hcp, Event.isBinder, Event.isSave]

/-- C5. For a `resp` call on a known template with a `*baseTemplateData` `b`,
where the request carries the messages `getMessages c`, the path `c.path` and
the context value `x`: afterwards the data is `b` with `Messages` the earlier
messages followed by the request's, `Path` the request path, `Context` `x`,
`Gin` the request handle, the six other fields as they were; and each of the
four binders was called once, in the order of the source. -/
theorem resp_binds_page {Tpl Msg Cx Err Val : Type} (templates : Store Tpl)
    (getMessages : GinContext Cx Err → List Msg)
    (execute : Tpl → String → Data Msg Cx Val → String × Option Err)
    (c : GinContext Cx Err) (statusCode : Int) (tpl : String)
    (b : baseTemplateData Msg Cx) (t : Tpl) (x : Cx)
    (hk : Store.get templates tpl = some t)
    (hx : c.context = some x) :
    ∃ b', (resp templates getMessages execute (some c) statusCode tpl (.page b)).data =
        .page b' ∧
      b'.Messages = b.Messages ++ getMessages c ∧
      b'.Path = c.path ∧ b'.Context = x ∧ b'.Gin = some c.addr ∧
      b'.TitleBar = b.TitleBar ∧ b'.HeadingTitle = b.HeadingTitle ∧
      b'.Scripts = b.Scripts ∧ b'.KyutGrill = b.KyutGrill ∧
      b'.DisableHH = b.DisableHH ∧ b'.FormData = b.FormData ∧
      (resp templates getMessages execute (some c) statusCode tpl (.page b)).log.filter
        Event.isBinder = [.setMessages, .setPath, .setContext, .setGinContext] := by
  obtain ⟨hd, rest, hl, hr, _, _⟩ :=
    resp_data_log templates getMessages execute c statusCode tpl (.page b) t hk
  have hbp : bindPage getMessages c (Data.page b : Data Msg Cx Val) =
      (.page ((((b.SetMessages (getMessages c)).SetPath c.path).SetContext x).SetGinContext
        c.addr), [.setMessages, .setPath, .setContext, .setGinContext], false) := by
    simp [bindPage, hx]
  rw [hbp] at hd hl
  refine ⟨_, hd, rfl, rfl, rfl, rfl, rfl, rfl, rfl, rfl, rfl, rfl, ?_⟩
  rw [hl, List.filter_append]
  have hrest : rest.filter Event.isBinder = [] := by
    rw [List.filter_eq_nil_iff]
    intro e he
    simp [hr e he]
  rw [hrest]
  rfl

/-- C6, refuted: on a template name that is not in the store, `resp` writes
the diagnostic to the sink and returns without any `sess.Save()`. -/
theorem resp_missing_name_unsaved_write :
    ((resp demoStore demoMessages demoExecute (some demoContext) 200 "missing.html"
        (.plain "x")).c.map (fun c => (c.body, c.saves))) =
      some ("Template not found! Please tell this to a dev!", 0) ∧
    (resp demoStore demoMessages demoExecute (some demoContext) 200 "missing.html"
        (.plain "x")).log = [.string 500 notFoundMessage] ∧
    (resp demoStore demoMessages demoExecute (some demoContext) 200 "missing.html"
        (.plain "x")).panicked = false := by
  refine ⟨?_, ?_, ?_⟩ <;> rfl

theorem bindPage_calls_binders {Msg Cx Err Val : Type}
    (getMessages : GinContext Cx Err → List Msg)
    (c : GinContext Cx Err) (data : Data Msg Cx Val) :
    ∀ e ∈ (bindPage getMessages c data).2.1, e.isBinder = true := by
  cases data with
  | plain v => simp [bindPage]
  | page b =>
    cases hx : c.context <;> simp [bindPage, hx, Event.isBinder]

/-- C6, amended. In a `resp` call with a request context: when the template
name is in the store, nothing is written before the session is saved; a call
that returns has made exactly one `sess.Save()` call, which comes after every
binder call (only binder calls precede it) and before every write, and a call
that panics (a missing "context" or "session" value) has written nothing.
When the template name is not in the store, the diagnostic is written and the
session is not saved. -/
theorem resp_save_before_write {Tpl Msg Cx Err Val : Type} (templates : Store Tpl)
    (getMessages : GinContext Cx Err → List Msg)
    (execute : Tpl → String → Data Msg Cx Val → String × Option Err)
    (c : GinContext Cx Err) (statusCode : Int) (tpl : String) (data : Data Msg Cx Val) :
    (Store.get templates tpl ≠ none →
      ((resp templates getMessages execute (some c) statusCode tpl data).panicked = false →
        ∃ pre post,
          (resp templates getMessages execute (some c) statusCode tpl data).log =
            pre ++ .save :: post ∧
          (∀ e ∈ pre, e.isBinder = true ∧ e.isWrite = false ∧ e.isSave = false) ∧
          (∀ e ∈ post, e.isSave = false ∧ e.isBinder = false)) ∧
      ((resp templates getMessages execute (some c) statusCode tpl data).panicked = true →
        ∀ e ∈ (resp templates getMessages execute (some c) statusCode tpl data).log,
          e.isWrite = false ∧ e.isSave = false)) ∧
    (Store.get templates tpl = none →
      (resp templates getMessages execute (some c) statusCode tpl data).log =
        [.string 500 notFoundMessage] ∧
      (resp templates getMessages execute (some c) statusCode tpl data).panicked = false) := by
  constructor
  · intro hne
    obtain ⟨t, hk⟩ := Option.ne_none_iff_exists'.mp hne
    obtain ⟨_, rest, hl, hnb, hp, hq⟩ :=
      resp_data_log templates getMessages execute c statusCode tpl data t hk
    have hcalls := bindPage_calls_not_write getMessages c data
    have hbind := bindPage_calls_binders getMessages c data
    constructor
    · intro hnp
      obtain ⟨post, hpost, hns⟩ := hq hnp
      refine ⟨(bindPage getMessages c data).2.1, post, by rw [hl, hpost], ?_, ?_⟩
      · intro e he
        exact ⟨hbind e he, hcalls e he⟩
      · intro e he
        refine ⟨hns e he, hnb e ?_⟩
        rw [hpost]
        exact List.mem_cons_of_mem _ he
    · intro hpan e he
      rw [hl, hp hpan, List.append_nil] at he
      exact hcalls e he
  · intro hk
    simp [resp, hk]

/-- C2, amended, on the name "missing.html": status 500, the diagnostic as the
body, Content-Type "text/plain; charset=utf-8", no save. -/
theorem resp_unknown_template_witness :
    Store.get demoStore "missing.html" = none ∧
    ∃ c', (resp demoStore demoMessages demoExecute (some demoContext) 200 "missing.html"
        (.plain "x")).c = some c' ∧
      c'.status = 500 ∧
      c'.body = "Template not found! Please tell this to a dev!" ∧
      c'.getHeader "Content-Type" = some "text/plain; charset=utf-8" ∧
      c'.saves = 0 := by
  have h : Store.get demoStore "missing.html" = none := by decide
  obtain ⟨c', h1, _, _, _, h2, h3, h4, _, _, h5, _⟩ :=
    resp_unknown_template demoStore demoMessages demoExecute demoContext 200 "missing.html"
      (.plain "x") h
  refine ⟨h, c', h1, h2, ?_, h4 rfl, ?_⟩
  · rw [(h3 rfl).1]
    decide
  · rw [h5]
    rfl

/-- C3, on the template "broken.html", whose execution fails after it has put
bytes in the buffer: the body is the apology alone. -/
theorem resp_execution_error_witness :
    Store.get demoStore "broken.html" = some "broken" ∧
    demoContext.session = true ∧
    (demoExecute "broken" "base"
      (bindPage demoMessages demoContext (.plain "x")).1).2 = some "nil pointer" ∧
    ∃ c', (resp demoStore demoMessages demoExecute (some demoContext) 200 "broken.html"
        (.plain "x")).c = some c' ∧
      c'.getHeader "Content-Type" = none ∧
      c'.body = apologyMessage ∧
      c'.errors = ["nil pointer"] := by
  have hk : Store.get demoStore "broken.html" = some "broken" := by decide
  have he : (demoExecute "broken" "base"
      (bindPage demoMessages demoContext (.plain "x")).1).2 = some "nil pointer" := by decide
  obtain ⟨c', h1, _, _, _, h2, _, h3, h4, _⟩ :=
    resp_execution_error demoStore demoMessages demoExecute demoContext 200 "broken.html"
      (.plain "x") "broken" "nil pointer" hk rfl (fun h => by cases h) he
  refine ⟨hk, rfl, he, c', h1, ?_, ?_, ?_⟩
  · rw [h2]
    rfl
  · rw [h3 rfl]
    show "" ++ apologyMessage = apologyMessage
    exact String.empty_append _
  · rw [h4]
    rfl

/-- C4, on the template "home.html" with a plain data value and status 200. -/
theorem resp_success_witness :
    Store.get demoStore "home.html" = some "home" ∧
    demoContext.session = true ∧
    demoExecute "home" "base" (bindPage demoMessages demoContext (.plain "x")).1 =
      ("<html>Home</html>", none) ∧
    demoContext.sinkFault = none ∧
    (0 : Int) < 200 ∧
    ∃ c', (resp demoStore demoMessages demoExecute (some demoContext) 200 "home.html"
        (.plain "x")).c = some c' ∧
      c'.getHeader "Content-Type" = some "text/html; charset=utf-8" ∧
      c'.status = 200 ∧
      c'.body = "<html>Home</html>" ∧
      c'.errors = [] := by
  have hk : Store.get demoStore "home.html" = some "home" := by decide
  have he : demoExecute "home" "base" (bindPage demoMessages demoContext (.plain "x")).1 =
      ("<html>Home</html>", none) := by decide
  obtain ⟨c', h1, _, _, h2, h3, h4, h5, _⟩ :=
    resp_success demoStore demoMessages demoExecute demoContext 200 "home.html"
      (.plain "x") "home" "<html>Home</html>" hk rfl (fun h => by cases h) he rfl (by decide)
  refine ⟨hk, rfl, he, rfl, by decide, c', h1, h2, h3, ?_, ?_⟩
  · rw [h4]
    decide
  · rw [h5]
    rfl

/-- C5, on a page that holds the message "earlier" and a request that carries
the message "saved": afterwards the page holds both, in that order. -/
theorem resp_binds_page_witness :
    Store.get demoStore "home.html" = some "home" ∧
    demoContext.context = some "user" ∧
    ∃ b', (resp demoStore demoMessages demoExecute (some demoContext) 200 "home.html"
        (.page demoPage)).data = .page b' ∧
      b'.Messages = ["earlier", "saved"] ∧
      b'.Path = "/" ∧ b'.Context = "user" ∧ b'.Gin = some 1 ∧
      b'.TitleBar = "Home" ∧ b'.FormData = [("name", "x")] := by
  have hk : Store.get demoStore "home.html" = some "home" := by decide
  obtain ⟨b', h1, h2, h3, h4, h5, h6, _, _, _, _, h7, _⟩ :=
    resp_binds_page demoStore demoMessages demoExecute demoContext 200 "home.html"
      demoPage "home" "user" hk rfl
  exact ⟨hk, rfl, b', h1, h2, h3, h4, h5, h6, h7⟩

/-! ## The helper `atoi`: claim C10 -/

theorem digit_iff (d : Char) : ('0' ≤ d ∧ d ≤ '9') ↔ d.isDigit = true := by
  simp only [Char.isDigit, Bool.and_eq_true, decide_eq_true_eq, ge_iff_le]
  exact Iff.rfl

theorem digit_toNat (d : Char) (h : d.isDigit = true) : 48 ≤ d.toNat ∧ d.toNat ≤ 57 := by
  simp only [Char.isDigit, Bool.and_eq_true, decide_eq_true_eq, ge_iff_le] at h
  have h1 : (48 : UInt32).toNat ≤ d.val.toNat := h.1
  have h2 : d.val.toNat ≤ (57 : UInt32).toNat := h.2
  exact ⟨h1, h2⟩

theorem foldl_value_ge (ds : List Char) : ∀ n : Nat,
    n ≤ ds.foldl (fun n d => 10 * n + (d.toNat - 48)) n := by
  induction ds with
  | nil => intro n; exact Nat.le_refl n
  | cons d ds ih =>
    intro n
    simp only [List.foldl_cons]
    have := ih (10 * n + (d.toNat - 48))
    omega

theorem maxUint64_eq : maxUint64 = 18446744073709551615 := by
  norm_num [maxUint64]

theorem loop_nil (M n : Nat) : ParseUint.loop M [] n = (n, none) := by
  rw [ParseUint.loop]

theorem loop_cons_digit (M n : Nat) (d : Char) (rest : List Char) (hd : d.isDigit = true) :
    ParseUint.loop M (d :: rest) n =
      if n ≥ 1844674407370955162 then (maxUint64, some .ErrRange)
      else if (n * 10 + (d.toNat - 48)) % 18446744073709551616 < n * 10 % 18446744073709551616 ∨
          (n * 10 + (d.toNat - 48)) % 18446744073709551616 > M then
        (maxUint64, some .ErrRange)
      else ParseUint.loop M rest ((n * 10 + (d.toNat - 48)) % 18446744073709551616) := by
  rw [ParseUint.loop, if_pos ((digit_iff d).mpr hd)]
  have h0 : '0'.toNat = 48 := rfl
  simp only [maxUint64_eq, h0, Nat.reducePow, Nat.reduceDiv, Nat.reduceAdd, Nat.mod_add_mod]

theorem loop_cons_nondigit (M n : Nat) (d : Char) (rest : List Char)
    (hd : ¬ d.isDigit = true) :
    ParseUint.loop M (d :: rest) n = (0, some .ErrSyntax) := by
  rw [ParseUint.loop, if_neg (fun h => hd ((digit_iff d).mp h))]

theorem loop_digits (M : Nat) (hM : M ≤ 18446744073709551615) (ds : List Char) :
    ∀ n : Nat, n ≤ M → (∀ d ∈ ds, d.isDigit = true) →
      (ds.foldl (fun n d => 10 * n + (d.toNat - 48)) n ≤ M →
        ParseUint.loop M ds n = (ds.foldl (fun n d => 10 * n + (d.toNat - 48)) n, none)) ∧
      (M < ds.foldl (fun n d => 10 * n + (d.toNat - 48)) n →
        ParseUint.loop M ds n = (maxUint64, some .ErrRange)) := by
  induction ds with
  | nil =>
    intro n hn _
    rw [loop_nil]
    refine ⟨fun _ => rfl, fun h => ?_⟩
    simp only [List.foldl_nil] at h
    omega
  | cons d ds ih =>
    intro n hn hall
    have hd : d.isDigit = true := hall d (List.mem_cons_self _ _)
    have hall' : ∀ x ∈ ds, x.isDigit = true := fun x hx => hall x (List.mem_cons_of_mem _ hx)
    obtain ⟨hlo, hhi⟩ := digit_toNat d hd
    have hge := foldl_value_ge ds (10 * n + (d.toNat - 48))
    rw [loop_cons_digit M n d ds hd]
    simp only [List.foldl_cons]
    by_cases hcut : n ≥ 1844674407370955162
    · rw [if_pos hcut]
      exact ⟨fun h => absurd h (by omega), fun _ => rfl⟩
    · rw [if_neg hcut]
      by_cases hov : (n * 10 + (d.toNat - 48)) % 18446744073709551616 <
            n * 10 % 18446744073709551616 ∨
          (n * 10 + (d.toNat - 48)) % 18446744073709551616 > M
      · rw [if_pos hov]
        refine ⟨fun h => absurd h ?_, fun _ => rfl⟩
        omega
      · rw [if_neg hov]
        have e : (n * 10 + (d.toNat - 48)) % 18446744073709551616 =
            10 * n + (d.toNat - 48) := by omega
        rw [e]
        exact ih (10 * n + (d.toNat - 48)) (by omega) hall'

theorem loop_nondigit (M : Nat) (ds : List Char) :
    ∀ n : Nat, (∃ d ∈ ds, ¬ d.isDigit = true) →
      ParseUint.loop M ds n = (0, some .ErrSyntax) ∨
        ParseUint.loop M ds n = (maxUint64, some .ErrRange) := by
  induction ds with
  | nil =>
    intro n h
    obtain ⟨d, hd, _⟩ := h
    simp at hd
  | cons d ds ih =>
    intro n h
    by_cases hd : d.isDigit = true
    · have h' : ∃ x ∈ ds, ¬ x.isDigit = true := by
        obtain ⟨x, hx, hnx⟩ := h
        rcases List.mem_cons.mp hx with rfl | hx'
        · exact absurd hd hnx
        · exact ⟨x, hx', hnx⟩
      rw [loop_cons_digit M n d ds hd]
      by_cases hcut : n ≥ 1844674407370955162
      · rw [if_pos hcut]
        exact Or.inr rfl
      · rw [if_neg hcut]
        split
        · exact Or.inr rfl
        · exact ih _ h'
    · exact Or.inl (loop_cons_nondigit M n d ds hd)

theorem maxVal_eq (b : Nat) (hb : b ≤ 64) : (2 ^ b + 2 ^ 64 - 1) % 2 ^ 64 = 2 ^ b - 1 := by
  have h1 : 1 ≤ 2 ^ b := Nat.one_le_two_pow
  have h2 : 2 ^ b ≤ 2 ^ 64 := Nat.pow_le_pow_right (by norm_num) hb
  generalize 2 ^ b = P at h1 h2 ⊢
  norm_num at h2 ⊢
  omega

theorem two_pow_pred (b : Nat) (hb : 1 ≤ b) : 2 ^ b = 2 * 2 ^ (b - 1) := by
  obtain ⟨k, rfl⟩ : ∃ k, b = k + 1 := ⟨b - 1, by omega⟩
  simp [pow_succ, Nat.mul_comm]

theorem parseUint_cases (b : Nat) (hb : b ≤ 64) (body : List Char) :
    (body ≠ [] ∧ (∀ d ∈ body, d.isDigit = true) ∧ decimalValue body ≤ 2 ^ b - 1 ∧
      ParseUint body b = (decimalValue body, none)) ∨
    (¬ (body ≠ [] ∧ (∀ d ∈ body, d.isDigit = true) ∧ decimalValue body ≤ 2 ^ b - 1) ∧
      (ParseUint body b = (0, some .ErrSyntax) ∨
        ParseUint body b = (maxUint64, some .ErrRange))) := by
  have hM : 2 ^ b - 1 ≤ 18446744073709551615 := by
    have h2 : 2 ^ b ≤ 2 ^ 64 := Nat.pow_le_pow_right (by norm_num) hb
    norm_num at h2
    omega
  cases body with
  | nil => exact Or.inr ⟨by simp, Or.inl rfl⟩
  | cons c cs =>
    have hP : ParseUint (c :: cs) b = ParseUint.loop (2 ^ b - 1) (c :: cs) 0 := by
      simp only [ParseUint, maxVal_eq b hb]
    rw [hP]
    by_cases hall : ∀ d ∈ c :: cs, d.isDigit = true
    · obtain ⟨h1, h2⟩ := loop_digits (2 ^ b - 1) hM (c :: cs) 0 (Nat.zero_le _) hall
      by_cases hv : decimalValue (c :: cs) ≤ 2 ^ b - 1
      · exact Or.inl ⟨by simp, hall, hv, h1 hv⟩
      · exact Or.inr ⟨fun h => hv h.2.2, Or.inr (h2 (Nat.lt_of_not_le hv))⟩
    · refine Or.inr ⟨fun h => hall h.2.1, ?_⟩
      apply loop_nondigit
      push_neg at hall
      obtain ⟨d, hd, hnd⟩ := hall
      exact ⟨d, hd, hnd⟩

theorem signed_spec (b : Nat) (hb1 : 1 ≤ b) (hb2 : b ≤ 64) (neg : Bool) (body : List Char)
    (i : Int) :
    ParseInt.signed neg body b = (i, none) ↔
      body ≠ [] ∧ (∀ d ∈ body, d.isDigit = true) ∧
        ((neg = false ∧ decimalValue body < 2 ^ (b - 1) ∧ i = decimalValue body) ∨
         (neg = true ∧ decimalValue body ≤ 2 ^ (b - 1) ∧ i = -(decimalValue body : Int))) := by
  have hQ1 : 1 ≤ 2 ^ (b - 1) := Nat.one_le_two_pow
  have hQ2 : 2 ^ (b - 1) ≤ 2 ^ 63 := Nat.pow_le_pow_right (by norm_num) (by omega)
  have hPQ := two_pow_pred b hb1
  norm_num at hQ2
  rcases parseUint_cases b hb2 body with ⟨hne, hall, hv, hp⟩ | ⟨hnot, hp | hp⟩
  · simp only [ParseInt.signed, hp]
    cases neg with
    | false =>
      by_cases hlt : decimalValue body < 2 ^ (b - 1)
      · have : ¬ decimalValue body ≥ 2 ^ (b - 1) := by omega
        simp [this, hne, hall, hlt]
        exact ⟨fun h => ⟨hall, h.symm⟩, fun h => h.2.symm⟩
      · have : decimalValue body ≥ 2 ^ (b - 1) := by omega
        simp [this, hlt]
    | true =>
      by_cases hle : decimalValue body ≤ 2 ^ (b - 1)
      · have : ¬ decimalValue body > 2 ^ (b - 1) := by omega
        simp [this, hne, hall, hle]
        exact ⟨fun h => ⟨hall, h.symm⟩, fun h => h.2.symm⟩
      · have : decimalValue body > 2 ^ (b - 1) := by omega
        simp [this, hle]
  · simp only [ParseInt.signed, hp]
    constructor
    · intro h
      simp at h
    · rintro ⟨hne, hall, h | h⟩
      · exact absurd ⟨hne, hall, by omega⟩ hnot
      · exact absurd ⟨hne, hall, by omega⟩ hnot
  · have hge : maxUint64 ≥ 2 ^ (b - 1) := by rw [maxUint64_eq]; omega
    have hgt : maxUint64 > 2 ^ (b - 1) := by rw [maxUint64_eq]; omega
    simp only [ParseInt.signed, hp]
    constructor
    · intro h
      cases neg <;> simp [hge, hgt] at h
    · rintro ⟨hne, hall, h | h⟩
      · exact absurd ⟨hne, hall, by omega⟩ hnot
      · exact absurd ⟨hne, hall, by omega⟩ hnot

theorem parseInt_spec (b : Nat) (hb1 : 1 ≤ b) (hb2 : b ≤ 64) (s : String) (i : Int) :
    ParseInt s.data b = (i, none) ↔ IsIntLiteral s i ∧ InIntRange b i := by
  have hcast : ((2 ^ (b - 1) : Nat) : Int) = (2 : Int) ^ (b - 1) := by push_cast; rfl
  have hplus : ¬ ('+' : Char).isDigit = true := by decide
  have hminus : ¬ ('-' : Char).isDigit = true := by decide
  unfold IsIntLiteral InIntRange
  rw [← hcast]
  cases hs : s.data with
  | nil =>
    constructor
    · intro h
      simp [ParseInt] at h
    · rintro ⟨⟨digits, hne, _, h | h | h⟩, _⟩
      · exact absurd h.1.symm hne
      · simp at h
      · simp at h
  | cons c cs =>
    by_cases hp : c = '+'
    · subst hp
      simp only [ParseInt, if_true]
      rw [signed_spec b hb1 hb2]
      constructor
      · rintro ⟨hne, hall, ⟨_, hlt, hi⟩ | ⟨hf, _⟩⟩
        · refine ⟨⟨cs, hne, hall, Or.inr (Or.inl ⟨rfl, hi⟩)⟩, ?_⟩
          subst hi
          constructor <;> omega
        · simp at hf
      · rintro ⟨⟨digits, hne, hall, h | h | h⟩, hr⟩
        · exact absurd (hall '+' (by simp [← h.1])) hplus
        · obtain ⟨h1, h2⟩ := h
          simp only [List.cons.injEq, true_and] at h1
          subst h1 h2
          exact ⟨hne, hall, Or.inl ⟨rfl, by omega, rfl⟩⟩
        · simp at h
    · by_cases hm : c = '-'
      · subst hm
        simp only [ParseInt, hp, if_false, if_true]
        rw [signed_spec b hb1 hb2]
        constructor
        · rintro ⟨hne, hall, ⟨hf, _⟩ | ⟨_, hle, hi⟩⟩
          · simp at hf
          · refine ⟨⟨cs, hne, hall, Or.inr (Or.inr ⟨rfl, hi⟩)⟩, ?_⟩
            subst hi
            have hQ1 : 1 ≤ 2 ^ (b - 1) := Nat.one_le_two_pow
            constructor <;> omega
        · rintro ⟨⟨digits, hne, hall, h | h | h⟩, hr⟩
          · exact absurd (hall '-' (by simp [← h.1])) hminus
          · simp at h
          · obtain ⟨h1, h2⟩ := h
            simp only [List.cons.injEq, true_and] at h1
            subst h1 h2
            exact ⟨hne, hall, Or.inr ⟨rfl, by omega, rfl⟩⟩
      · simp only [ParseInt, hp, hm, if_false]
        rw [signed_spec b hb1 hb2]
        constructor
        · rintro ⟨hne, hall, ⟨_, hlt, hi⟩ | ⟨hf, _⟩⟩
          · refine ⟨⟨c :: cs, hne, hall, Or.inl ⟨rfl, hi⟩⟩, ?_⟩
            subst hi
            constructor <;> omega
          · simp at hf
        · rintro ⟨⟨digits, hne, hall, h | h | h⟩, hr⟩
          · obtain ⟨h1, h2⟩ := h
            subst h1 h2
            exact ⟨hne, hall, Or.inl ⟨rfl, by omega, rfl⟩⟩
          · exact absurd (List.cons.inj h.1).1 hp
          · exact absurd (List.cons.inj h.1).1 hm

theorem excessBits_small (fuel n : Nat) (h : n < 2 ^ 53) : excessBits fuel n = 0 := by
  cases fuel with
  | zero => rfl
  | succ f => rw [excessBits, if_pos h]

theorem roundFloat64_small (n : Nat) (h : n < 2 ^ 53) : roundFloat64 n = n := by
  unfold roundFloat64
  simp only [excessBits_small 64 n h, if_true]

theorem roundFloat64_two_pow_53 : roundFloat64 (2 ^ 53) = 2 ^ 53 := by
  decide

theorem float64_exact (i : Int) (hlo : -(2 : Int) ^ 53 ≤ i) (hhi : i ≤ (2 : Int) ^ 53) :
    float64 i = i := by
  have hr : roundFloat64 i.natAbs = i.natAbs := by
    by_cases hlt : i.natAbs < 2 ^ 53
    · exact roundFloat64_small _ hlt
    · have he : i.natAbs = 2 ^ 53 := by omega
      rw [he]
      exact roundFloat64_two_pow_53
  unfold float64
  rw [hr]
  by_cases hneg : i < 0
  · rw [if_pos hneg]
    omega
  · rw [if_neg hneg]
    omega

theorem atoi_number_iff (b : Nat) (hb1 : 1 ≤ b) (hb2 : b ≤ 64) (s : String) (x : Int) :
    atoi b s = .number x ↔ ∃ i, IsIntLiteral s i ∧ InIntRange b i ∧ x = float64 i := by
  unfold atoi Atoi
  rcases h : ParseInt s.data b with ⟨j, err⟩
  cases err with
  | none =>
    have hj := (parseInt_spec b hb1 hb2 s j).mp h
    simp only [AtoiValue.number.injEq]
    constructor
    · intro hx
      exact ⟨j, hj.1, hj.2, hx.symm⟩
    · rintro ⟨i, hl, hr, hx⟩
      have hi := (parseInt_spec b hb1 hb2 s i).mpr ⟨hl, hr⟩
      rw [h] at hi
      simp only [Prod.mk.injEq, and_true] at hi
      rw [hx, hi]
  | some e =>
    simp only
    constructor
    · intro hx
      cases hx
    · rintro ⟨i, hl, hr, _⟩
      have hi := (parseInt_spec b hb1 hb2 s i).mpr ⟨hl, hr⟩
      rw [h] at hi
      simp at hi

/-- C10. The helper "atoi" is a total function of its string and raises no
error: on a platform whose `int` has `intSize` bits (from 1 to 64, so 32 and
64), it returns nil exactly when the string is not a base-10 integer literal
(an optional sign and one or more decimal digits) whose value lies in the
range of `int`; on such a literal of value `i` it returns the number
`float64(i)`, and nothing else is ever returned as a number. That number is
`i` itself whenever `i` lies between -2^53 and 2^53; beyond, it is the
nearest `float64`. -/
theorem atoi_nil_iff (intSize : Nat) (h1 : 1 ≤ intSize) (h2 : intSize ≤ 64) (s : String) :
    (atoi intSize s = .nil ↔ ¬ ∃ i, IsIntLiteral s i ∧ InIntRange intSize i) ∧
    (∀ i, IsIntLiteral s i → InIntRange intSize i → atoi intSize s = .number (float64 i)) ∧
    (∀ x, atoi intSize s = .number x →
      ∃ i, IsIntLiteral s i ∧ InIntRange intSize i ∧ x = float64 i) ∧
    (∀ i, IsIntLiteral s i → InIntRange intSize i → -(2 : Int) ^ 53 ≤ i → i ≤ (2 : Int) ^ 53 →
      atoi intSize s = .number i) := by
  have hnum : ∀ i, IsIntLiteral s i → InIntRange intSize i →
      atoi intSize s = .number (float64 i) :=
    fun i hl hr => (atoi_number_iff intSize h1 h2 s (float64 i)).mpr ⟨i, hl, hr, rfl⟩
  refine ⟨?_, hnum, fun x h => (atoi_number_iff intSize h1 h2 s x).mp h, ?_⟩
  · constructor
    · rintro hnil ⟨i, hl, hr⟩
      have := hnum i hl hr
      rw [hnil] at this
      cases this
    · intro hno
      cases ha : atoi intSize s with
      | nil => rfl
      | number x =>
        obtain ⟨i, hl, hr, _⟩ := (atoi_number_iff intSize h1 h2 s x).mp ha
        exact absurd ⟨i, hl, hr⟩ hno
  · intro i hl hr hlo hhi
    rw [hnum i hl hr, float64_exact i hlo hhi]

/-- C10, on a 64-bit platform: "abc" and the empty string give nil, "-12"
gives the number -12, "9007199254740993" gives the `float64` nearest to it,
and the largest `int` gives 2^63. -/
theorem atoi_nil_iff_witness :
    atoi 64 "abc" = .nil ∧ atoi 64 "" = .nil ∧ atoi 64 "-12" = .number (-12) ∧
    atoi 64 "9007199254740993" = .number 9007199254740992 ∧
    atoi 64 "9223372036854775807" = .number 9223372036854775808 ∧
    atoi 64 "9223372036854775808" = .nil ∧
    ((atoi 64 "abc" = .nil ↔ ¬ ∃ i, IsIntLiteral "abc" i ∧ InIntRange 64 i) ∧
    (∀ i, IsIntLiteral "abc" i → InIntRange 64 i → atoi 64 "abc" = .number (float64 i)) ∧
    (∀ x, atoi 64 "abc" = .number x →
      ∃ i, IsIntLiteral "abc" i ∧ InIntRange 64 i ∧ x = float64 i) ∧
    (∀ i, IsIntLiteral "abc" i → InIntRange 64 i → -(2 : Int) ^ 53 ≤ i → i ≤ (2 : Int) ^ 53 →
      atoi 64 "abc" = .number i)) :=
  ⟨by decide, by decide, by decide, by decide, by decide, by decide,
    atoi_nil_iff 64 (by decide) (by decide) "abc"⟩

end Hanayo
